import Mathlib

/-!
Verification of the assistant_app repository's calendar core against its
natural-language specification.

The development shallowly embeds the JavaScript sources:

* `time/mongo_calendar.js` / `time/index.js` — the calendar store, the
  bidirectional synchronization (`syncEvents`) and the free-time computation
  (`calculateFreeTimeIntervals`);
* `tasks/scheduling_interface.js` — `scheduleTask`, `unscheduleTask` and the
  slot-suggestion filter of `suggestTimeSlots`;
* `progress/language_tracker.js` — `logWordsLearned`, `getMonthlyProgress`.

Timestamps (`Date` values / `dateTime` strings compared by `new Date`
subtraction) are embedded as `Int` milliseconds.  Identifiers (Google event
ids, Mongo `_id`s) are embedded as `Nat`.  A remote id freshly assigned by the
provider is modelled as one strictly larger than every id currently present,
reflecting that the provider never reuses ids.  Stateful code is embedded as
explicit state passing; every adapter mutation performed by a run is also
recorded in a returned operation list.
-/

namespace AssistantApp

/-! ## Free-time computation (`time/mongo_calendar.js`, `calculateFreeTimeIntervals`) -/

/-- A busy calendar event as consumed by `calculateFreeTimeIntervals`:
`start` embeds `new Date(event.start.dateTime)` and `stop` embeds
`new Date(event.end.dateTime)` (`end` is a Lean keyword). -/
structure BusyEvent where
  start : Int
  stop : Int
deriving DecidableEq, Repr

/-- A free interval as produced by `calculateFreeTimeIntervals`: `start`/`stop`
embed the pushed `{start, end}` record. -/
structure FreeInterval where
  start : Int
  stop : Int
deriving DecidableEq, Repr

/-- Comparator used by the `events.sort((a, b) => new Date(a.start.dateTime) -
new Date(b.start.dateTime))` call: ascending by start time. -/
def byStart (a b : BusyEvent) : Prop := a.start ≤ b.start

instance : DecidableRel byStart := fun a b => by
  unfold byStart; infer_instance

instance : IsTotal BusyEvent byStart := ⟨fun a b => Int.le_total a.start b.start⟩

instance : IsTrans BusyEvent byStart := ⟨fun _ _ _ h h2 => le_trans h h2⟩

/-- The loop of `calculateFreeTimeIntervals` (lines 360–382): for each event of
the sorted list, push `{cur, eventStart}` when `eventStart > cur`, then set the
cursor to `eventEnd` (unconditionally — the code has no `max`); after the loop
push `{cur, dayEnd}` when `dayEnd > cur`. -/
def freeLoop (dayEnd : Int) : Int → List BusyEvent → List FreeInterval
  | cur, [] => if dayEnd > cur then [⟨cur, dayEnd⟩] else []
  | cur, ev :: rest =>
    (if ev.start > cur then [⟨cur, ev.start⟩] else []) ++ freeLoop dayEnd ev.stop rest

/-- Embeds `calculateFreeTimeIntervals(events)` (lines 349–385).  `now` embeds
the `new Date()` taken as the initial cursor, `dayEnd` the end-of-day
timestamp; the events are first sorted ascending by start as in the source. -/
def calculateFreeTimeIntervals (now dayEnd : Int) (events : List BusyEvent) :
    List FreeInterval :=
  freeLoop dayEnd now (List.insertionSort byStart events)

/-- Length `end - start` of a free interval, summed over a list. -/
def sumFreeLen (l : List FreeInterval) : Int :=
  l.foldr (fun i acc => (i.stop - i.start) + acc) 0

/-- Length of a busy interval, summed over a list. -/
def sumBusyLen (l : List BusyEvent) : Int :=
  l.foldr (fun b acc => (b.stop - b.start) + acc) 0

/-- Length of the intersection of a busy interval with the window `[s, e)`,
as used in the conservation property of the specification. -/
def interLen (s e : Int) (b : BusyEvent) : Int :=
  max 0 (min e b.stop - max s b.start)

/-- Sum of the window intersections of a list of busy intervals. -/
def sumInterLen (s e : Int) (l : List BusyEvent) : Int :=
  l.foldr (fun b acc => interLen s e b + acc) 0

theorem sumFreeLen_cons (i : FreeInterval) (l : List FreeInterval) :
    sumFreeLen (i :: l) = (i.stop - i.start) + sumFreeLen l := rfl

theorem sumBusyLen_cons (b : BusyEvent) (l : List BusyEvent) :
    sumBusyLen (b :: l) = (b.stop - b.start) + sumBusyLen l := rfl

theorem sumInterLen_cons (s e : Int) (b : BusyEvent) (l : List BusyEvent) :
    sumInterLen s e (b :: l) = interLen s e b + sumInterLen s e l := rfl

/-- Two intervals (a free one and a busy one) overlap when the intersection of
their half-open spans is non-empty. -/
def overlaps (f : FreeInterval) (b : BusyEvent) : Prop :=
  max f.start b.start < min f.stop b.stop

instance (f : FreeInterval) (b : BusyEvent) : Decidable (overlaps f b) := by
  unfold overlaps; infer_instance

/-! Structural lemmas about `freeLoop`. -/

/-- Every interval pushed by the loop satisfies `start < stop`: the interior
push is guarded by `eventStart > cur` and the final push by `dayEnd > cur`. -/
theorem freeLoop_start_lt_stop (dayEnd : Int) :
    ∀ (l : List BusyEvent) (cur : Int), ∀ i ∈ freeLoop dayEnd cur l, i.start < i.stop := by
  intro l
  induction l with
  | nil =>
    intro cur i hi
    unfold freeLoop at hi
    by_cases h : dayEnd > cur
    · simp [h] at hi; subst hi; simpa using h
    · simp [h] at hi
  | cons ev rest ih =>
    intro cur i hi
    unfold freeLoop at hi
    rcases List.mem_append.1 hi with h1 | h2
    · by_cases h : ev.start > cur
      · simp [h] at h1; subst h1; simpa using h
      · simp [h] at h1
    · exact ih ev.stop i h2

/-- Every interval produced by the loop starts either at the initial cursor or
at the end of one of the events of the list. -/
theorem freeLoop_start_origin (dayEnd : Int) :
    ∀ (l : List BusyEvent) (cur : Int), ∀ i ∈ freeLoop dayEnd cur l,
      i.start = cur ∨ ∃ ev ∈ l, i.start = ev.stop := by
  intro l
  induction l with
  | nil =>
    intro cur i hi
    unfold freeLoop at hi
    by_cases h : dayEnd > cur
    · simp [h] at hi; subst hi; left; rfl
    · simp [h] at hi
  | cons ev rest ih =>
    intro cur i hi
    unfold freeLoop at hi
    rcases List.mem_append.1 hi with h1 | h2
    · by_cases h : ev.start > cur
      · simp [h] at h1; subst h1; left; rfl
      · simp [h] at h1
    · rcases ih ev.stop i h2 with h | ⟨ev2, hev2, he⟩
      · right; exact ⟨ev, List.mem_cons_self ev rest, h⟩
      · right; exact ⟨ev2, List.mem_cons_of_mem ev hev2, he⟩

/-- On a list sorted ascending by start whose events all satisfy
`start < stop`, the intervals produced by the loop are pairwise strictly
ascending and disjoint: each one ends before the next begins. -/
theorem freeLoop_pairwise (dayEnd : Int) :
    ∀ (l : List BusyEvent) (cur : Int),
      l.Sorted byStart → (∀ ev ∈ l, ev.start < ev.stop) →
      (freeLoop dayEnd cur l).Pairwise (fun a b => a.stop < b.start) := by
  intro l
  induction l with
  | nil =>
    intro cur _ _
    unfold freeLoop
    by_cases h : dayEnd > cur <;> simp [h]
  | cons ev rest ih =>
    intro cur hsort hwf
    have hsort2 : rest.Sorted byStart := hsort.of_cons
    have hwf2 : ∀ e ∈ rest, e.start < e.stop := fun e he => hwf e (List.mem_cons_of_mem ev he)
    have htail := ih ev.stop hsort2 hwf2
    unfold freeLoop
    by_cases h : ev.start > cur
    · simp only [h, if_pos]
      refine List.Pairwise.cons ?_ htail
      intro i hi
      rcases freeLoop_start_origin dayEnd rest ev.stop i hi with h0 | ⟨ev2, hev2, he⟩
      · have := hwf ev (List.mem_cons_self ev rest)
        simpa [h0] using this
      · have h1 : ev.start ≤ ev2.start := (List.pairwise_cons.1 hsort).1 ev2 hev2
        have h2 : ev2.start < ev2.stop := hwf2 ev2 hev2
        simp only [he]
        exact lt_of_le_of_lt h1 h2
    · simpa [h] using htail

/-- Conservation of the loop on an in-window, well-formed, disjoint sorted
list: the free lengths and the busy lengths tile `[cur, dayEnd)` exactly. -/
theorem freeLoop_conservation (dayEnd : Int) :
    ∀ (l : List BusyEvent) (cur : Int),
      cur ≤ dayEnd →
      (∀ b ∈ l, b.start ≤ b.stop ∧ b.stop ≤ dayEnd) →
      l.Pairwise (fun a b => a.stop ≤ b.start) →
      (∀ b, l.head? = some b → cur ≤ b.start) →
      sumFreeLen (freeLoop dayEnd cur l) + sumBusyLen l = dayEnd - cur := by
  intro l
  induction l with
  | nil =>
    intro cur hce _ _ _
    unfold freeLoop
    by_cases h : dayEnd > cur
    · simp [h, sumFreeLen, sumBusyLen]
    · have : dayEnd = cur := le_antisymm (not_lt.1 h) hce
      simp [h, sumFreeLen, sumBusyLen, this]
  | cons ev rest ih =>
    intro cur _ hwf hpair hhead
    have hcs : cur ≤ ev.start := hhead ev rfl
    have hse : ev.start ≤ ev.stop := (hwf ev (List.mem_cons_self ev rest)).1
    have hee : ev.stop ≤ dayEnd := (hwf ev (List.mem_cons_self ev rest)).2
    have hwf2 : ∀ b ∈ rest, b.start ≤ b.stop ∧ b.stop ≤ dayEnd :=
      fun b hb => hwf b (List.mem_cons_of_mem ev hb)
    have hpair2 : rest.Pairwise (fun a b => a.stop ≤ b.start) := hpair.of_cons
    have hhead2 : ∀ b, rest.head? = some b → ev.stop ≤ b.start := by
      intro b hb
      have hbmem : b ∈ rest := by
        cases rest with
        | nil => simp at hb
        | cons x xs =>
          simp at hb
          subst hb
          exact List.mem_cons_self x xs
      exact (List.pairwise_cons.1 hpair).1 b hbmem
    have htail := ih ev.stop hee hwf2 hpair2 hhead2
    unfold freeLoop
    by_cases h : ev.start > cur
    · rw [if_pos h, List.singleton_append, sumFreeLen_cons, sumBusyLen_cons]
      dsimp only
      omega
    · rw [if_neg h, List.nil_append, sumBusyLen_cons]
      omega

/-! ## Claim C1 -/

/-- Claim C1 counterexample.  The busy events `[(1,10), (2,3)]` both satisfy
`start < stop`, yet the computed free intervals `[(0,1), (3,20)]` are not
disjoint from the busy intervals: `(3,20)` overlaps the busy `(1,10)`, because
the cursor is set to `busyEnd` unconditionally (it moves backward from 10 to 3)
rather than to `max(cursor, busyEnd)`. -/
theorem calculateFreeTimeIntervals_overlap_cex :
    (∀ ev ∈ [BusyEvent.mk 1 10, BusyEvent.mk 2 3], ev.start < ev.stop) ∧
    calculateFreeTimeIntervals 0 20 [BusyEvent.mk 1 10, BusyEvent.mk 2 3] =
      [FreeInterval.mk 0 1, FreeInterval.mk 3 20] ∧
    ¬ (∀ f ∈ calculateFreeTimeIntervals 0 20 [BusyEvent.mk 1 10, BusyEvent.mk 2 3],
        ∀ b ∈ [BusyEvent.mk 1 10, BusyEvent.mk 2 3], ¬ overlaps f b) := by
  decide

/-- Claim C1, amended.  For every input list of busy events with
`start < stop`, every returned free interval has `start < stop`, and the
returned list is non-overlapping and strictly ascending (each interval ends
before the next begins).  The disjointness of free intervals from busy
intervals claimed for overlapping inputs does not hold (see the
counterexample): the code advances the cursor to `busyEnd` unconditionally,
not to `max(cursor, busyEnd)`. -/
theorem calculateFreeTimeIntervals_sound (now dayEnd : Int) (events : List BusyEvent)
    (hwf : ∀ ev ∈ events, ev.start < ev.stop) :
    (∀ i ∈ calculateFreeTimeIntervals now dayEnd events, i.start < i.stop) ∧
    (calculateFreeTimeIntervals now dayEnd events).Pairwise
      (fun a b => a.stop < b.start) := by
  constructor
  · exact freeLoop_start_lt_stop dayEnd _ now
  · apply freeLoop_pairwise
    · exact List.sorted_insertionSort byStart events
    · intro ev hev
      exact hwf ev ((List.mem_insertionSort byStart).1 hev)

/-- Witness for the amended C1 theorem at a concrete overlapping input. -/
theorem calculateFreeTimeIntervals_sound_witness :
    (∀ ev ∈ [BusyEvent.mk 1 10, BusyEvent.mk 2 3], ev.start < ev.stop) ∧
    ((∀ i ∈ calculateFreeTimeIntervals 0 20 [BusyEvent.mk 1 10, BusyEvent.mk 2 3],
        i.start < i.stop) ∧
      (calculateFreeTimeIntervals 0 20 [BusyEvent.mk 1 10, BusyEvent.mk 2 3]).Pairwise
        (fun a b => a.stop < b.start)) :=
  ⟨by decide, calculateFreeTimeIntervals_sound 0 20 _ (by decide)⟩

/-! ## Claim C2 -/

/-- Claim C2 counterexample.  The single busy interval `(-5, -3)` lies entirely
before the reference start `s = 0` of the window `[0, 10)`; it is sorted and
non-overlapping and `s < e`, yet the code does not skip it: the cursor is set
backward to `-3`, so the lone free interval is `(-3, 10)` of length 13, and
`13 + 0 ≠ 10 - 0`. -/
theorem calculateFreeTimeIntervals_conservation_cex :
    ([BusyEvent.mk (-5) (-3)].Pairwise (fun a b => a.stop ≤ b.start)) ∧
    (0 : Int) < 10 ∧
    calculateFreeTimeIntervals 0 10 [BusyEvent.mk (-5) (-3)] =
      [FreeInterval.mk (-3) 10] ∧
    sumFreeLen (calculateFreeTimeIntervals 0 10 [BusyEvent.mk (-5) (-3)]) +
        sumInterLen 0 10 [BusyEvent.mk (-5) (-3)] ≠ 10 - 0 := by
  decide

/-- Claim C2, amended.  The conservation law holds for busy intervals lying
inside the window: for every non-overlapping list `B` sorted ascending by
start with `s ≤ start`, `start ≤ stop` and `stop ≤ e` for each member, and
every window `[s, e)` with `s < e`, the sum of the free lengths plus the sum
of the busy-window intersection lengths equals `e - s`.  A busy interval
fully before `s` is not skipped by the code (the cursor has no `max` rule and
is set backward to its end), so the restriction to in-window intervals is
necessary — see the counterexample. -/
theorem sumInterLen_eq_sumBusyLen (s e : Int) (B : List BusyEvent)
    (hwf : ∀ b ∈ B, s ≤ b.start ∧ b.start ≤ b.stop ∧ b.stop ≤ e) :
    sumInterLen s e B = sumBusyLen B := by
  induction B with
  | nil => rfl
  | cons b rest ih =>
    have hb := hwf b (List.mem_cons_self b rest)
    have h1 : interLen s e b = b.stop - b.start := by
      unfold interLen
      omega
    rw [sumInterLen_cons, sumBusyLen_cons, h1,
      ih (fun x hx => hwf x (List.mem_cons_of_mem b hx))]

theorem calculateFreeTimeIntervals_conservation (s e : Int) (B : List BusyEvent)
    (hse : s < e)
    (hwf : ∀ b ∈ B, s ≤ b.start ∧ b.start ≤ b.stop ∧ b.stop ≤ e)
    (hpair : B.Pairwise (fun a b => a.stop ≤ b.start)) :
    sumFreeLen (calculateFreeTimeIntervals s e B) + sumInterLen s e B = e - s := by
  have hsorted : B.Sorted byStart := by
    refine hpair.imp_of_mem ?_
    intro a b ha _ h
    exact le_trans (hwf a ha).2.1 h
  have hsort_eq : List.insertionSort byStart B = B := hsorted.insertionSort_eq
  rw [sumInterLen_eq_sumBusyLen s e B hwf]
  unfold calculateFreeTimeIntervals
  rw [hsort_eq]
  apply freeLoop_conservation e B s (le_of_lt hse)
    (fun b hb => ⟨(hwf b hb).2.1, (hwf b hb).2.2⟩) hpair
  intro b hb
  have hbmem : b ∈ B := by
    cases B with
    | nil => simp at hb
    | cons x xs =>
      simp at hb
      subst hb
      exact List.mem_cons_self x xs
  exact (hwf b hbmem).1

/-- Witness for the amended C2 theorem at a concrete in-window input. -/
theorem calculateFreeTimeIntervals_conservation_witness :
    ((0 : Int) < 10 ∧
      (∀ b ∈ [BusyEvent.mk 2 4], (0 : Int) ≤ b.start ∧ b.start ≤ b.stop ∧ b.stop ≤ 10) ∧
      ([BusyEvent.mk 2 4].Pairwise (fun a b => a.stop ≤ b.start))) ∧
    sumFreeLen (calculateFreeTimeIntervals 0 10 [BusyEvent.mk 2 4]) +
      sumInterLen 0 10 [BusyEvent.mk 2 4] = 10 - 0 :=
  ⟨⟨by decide, by decide, by decide⟩,
    calculateFreeTimeIntervals_conservation 0 10 _ (by decide) (by decide) (by decide)⟩

/-! ## Slot suggestion (`tasks/scheduling_interface.js`, `suggestTimeSlots`) -/

/-- Embeds the filtering stage of `suggestTimeSlots` (lines 237–242): keep the
free intervals whose duration `end - start` (milliseconds) is at least
`task.duration * 60 * 60 * 1000` (the task duration is in hours).  The
surrounding fetching of events and the time-zone formatting of the returned
slots (which keeps order and content) are not part of this stage. -/
def suggestSlots (duration : Int) (freeIntervals : List FreeInterval) :
    List FreeInterval :=
  freeIntervals.filter (fun i => i.stop - i.start ≥ duration * 60 * 60 * 1000)

/-- Claim C7.  For every task duration and list of free intervals, the
suggested slots are a sublist of the input (hence input order is preserved),
an interval is suggested exactly when it belongs to the input and is at least
as long as the task duration converted to milliseconds, and no suggested
interval is shorter than the task duration.  In particular for a 2-hour task
and free intervals `[(9h, 10h), (9h, 13h)]` (timestamps in milliseconds), only
`(9h, 13h)` is returned. -/
theorem suggestSlots_spec (duration : Int) (fs : List FreeInterval)
    (hd : 0 < duration) (hsorted : fs.Pairwise (fun a b => a.start ≤ b.start)) :
    (suggestSlots duration fs).Sublist fs ∧
    (∀ i, i ∈ suggestSlots duration fs ↔
      i ∈ fs ∧ duration * 60 * 60 * 1000 ≤ i.stop - i.start) ∧
    (∀ i ∈ suggestSlots duration fs, duration * 60 * 60 * 1000 ≤ i.stop - i.start) ∧
    suggestSlots 2 [FreeInterval.mk 32400000 36000000, FreeInterval.mk 32400000 46800000] =
      [FreeInterval.mk 32400000 46800000] := by
  refine ⟨List.filter_sublist fs, ?_, ?_, by decide⟩
  · intro i
    constructor
    · intro hi
      have := List.mem_filter.1 hi
      exact ⟨this.1, by simpa using of_decide_eq_true this.2⟩
    · intro ⟨h1, h2⟩
      exact List.mem_filter.2 ⟨h1, by simpa using h2⟩
  · intro i hi
    have := List.mem_filter.1 hi
    simpa using of_decide_eq_true this.2

/-- Witness for the C7 theorem at the specification's concrete example. -/
theorem suggestSlots_spec_witness :
    ((0 : Int) < 2 ∧
      ([FreeInterval.mk 32400000 36000000, FreeInterval.mk 32400000 46800000].Pairwise
        (fun a b => a.start ≤ b.start))) ∧
    (suggestSlots 2 [FreeInterval.mk 32400000 36000000,
        FreeInterval.mk 32400000 46800000]).Sublist
      [FreeInterval.mk 32400000 36000000, FreeInterval.mk 32400000 46800000] :=
  ⟨⟨by decide, by decide⟩,
    (suggestSlots_spec 2 _ (by decide) (by decide)).1⟩

/-! ## Event and task records

`GEvent` embeds a Google Calendar event (`id`, `summary`, `start.dateTime`,
`end.dateTime`, `description`); `MEvent` embeds a MongoDB event document
(`_id`, the same four content fields, and the optional `googleEventId` link);
`Task` embeds a task document of the `tasks` collection. -/

structure GEvent where
  id : Nat
  summary : String
  startTime : Int
  endTime : Int
  description : String
deriving DecidableEq, Repr

structure MEvent where
  mid : Nat
  summary : String
  startTime : Int
  endTime : Int
  description : String
  googleEventId : Option Nat
deriving DecidableEq, Repr

structure Task where
  tid : Nat
  title : String
  duration : Int
  scheduled : Bool
  calendarEventId : Option Nat
deriving DecidableEq, Repr

/-- A fresh Google event id: the provider assigns an id it has never issued,
modelled as one strictly larger than every id present in the calendar. -/
def freshGid (l : List GEvent) : Nat :=
  l.foldr (fun g acc => max g.id acc) 0 + 1

/-- A fresh MongoDB `_id` for the events collection, analogous. -/
def freshMid (l : List MEvent) : Nat :=
  l.foldr (fun m acc => max m.mid acc) 0 + 1

/-- Replace the first element satisfying `p` by `f` of it: the semantics of a
MongoDB `updateOne` with a `$set`. -/
def updateFirst (p : α → Bool) (f : α → α) : List α → List α
  | [] => []
  | x :: xs => if p x then f x :: xs else x :: updateFirst p f xs

/-- When the first match of `p` is `a` and `f` fixes `a`, `updateFirst` is the
identity. -/
theorem updateFirst_eq_self (p : α → Bool) (f : α → α) (l : List α) (a : α)
    (h : l.find? p = some a) (hfa : f a = a) : updateFirst p f l = l := by
  induction l with
  | nil => simp at h
  | cons x xs ih =>
    cases hpx : p x with
    | true =>
      rw [List.find?_cons_of_pos _ hpx] at h
      injection h with h
      subst h
      simp [updateFirst, hpx, hfa]
    | false =>
      rw [List.find?_cons_of_neg _ (by simp [hpx])] at h
      simp [updateFirst, hpx, ih h]

/-! ## Task scheduling (`tasks/scheduling_interface.js`) -/

/-- State touched by the scheduling interface: the `tasks` collection, the
external Google calendar and the MongoDB events collection. -/
structure SchedState where
  tasks : List Task
  google : List GEvent
  mongo : List MEvent
deriving DecidableEq, Repr

/-- The requested time slot; its conversion through `moment.tz(...).utc()`
is value-preserving on the embedded millisecond timestamps. -/
structure Slot where
  start : Int
  stop : Int
deriving DecidableEq, Repr

/-- Errors raised by the scheduling interface; `notFound` embeds the thrown
`Task with ID ... not found.` error. -/
inductive SchedError where
  | notFound
deriving DecidableEq, Repr

/-- Embeds `tasksData.retrieveTaskById`: a `findOne` on the tasks collection,
returning the first document whose `_id` matches. -/
def retrieveTaskById (tasks : List Task) (taskId : Nat) : Option Task :=
  tasks.find? (fun t => t.tid == taskId)

/-- The event description written by `scheduleTask`:
`Task ID: ${taskId}`. -/
def taskDescription (taskId : Nat) : String :=
  "Task ID: " ++ toString taskId

/-- Embeds `scheduleTask(taskId, timeSlot, timeZone)` (lines 146–178 of the
scheduling interface): retrieve the task (`NotFound` if absent, with no
adapter call made); otherwise create the calendar event via
`timeModule.insertEvent` (a Google `createEvent` assigning a fresh id followed
by a Mongo insert linked through `googleEventId`), then `updateTaskData` with
`scheduled: true` and `calendarEventId` set to the Google event id.  The pair
returned is the result (confirmation string or error) together with the
post-state. -/
def scheduleTask (st : SchedState) (taskId : Nat) (slot : Slot) :
    Except SchedError String × SchedState :=
  match retrieveTaskById st.tasks taskId with
  | none => (Except.error SchedError.notFound, st)
  | some task =>
    let gid := freshGid st.google
    let g : GEvent := ⟨gid, task.title, slot.start, slot.stop, taskDescription taskId⟩
    let m : MEvent :=
      ⟨freshMid st.mongo, task.title, slot.start, slot.stop, taskDescription taskId, some gid⟩
    let tasks₂ := updateFirst (fun t => t.tid == taskId)
      (fun t => { t with scheduled := true, calendarEventId := some gid }) st.tasks
    (Except.ok ("Task scheduled successfully. Calendar Event ID: " ++ toString gid),
      { tasks := tasks₂, google := st.google ++ [g], mongo := st.mongo ++ [m] })

/-- Embeds `unscheduleTask(taskId)` (lines 185–209): retrieve the task
(`NotFound` if absent); when `task.calendarEventId` is set, call
`timeModule.deleteEvent(task.calendarEventId, task._id)`, which deletes the
Google event by `calendarEventId` and issues a Mongo `deleteOne` keyed on the
**task's** `_id` (the argument the caller actually passes); finally
`updateTaskData` with `scheduled: false, calendarEventId: null`. -/
def unscheduleTask (st : SchedState) (taskId : Nat) :
    Except SchedError String × SchedState :=
  match retrieveTaskById st.tasks taskId with
  | none => (Except.error SchedError.notFound, st)
  | some task =>
    let st₁ :=
      match task.calendarEventId with
      | none => st
      | some gid =>
        { st with
          google := st.google.eraseP (fun g => g.id == gid),
          mongo := st.mongo.eraseP (fun m => m.mid == task.tid) }
    let tasks₂ := updateFirst (fun t => t.tid == taskId)
      (fun t => { t with scheduled := false, calendarEventId := none }) st₁.tasks
    (Except.ok "Task unscheduled successfully.", { st₁ with tasks := tasks₂ })

/-! ## Claim C4 -/

/-- Claim C4.  For every state and every task id with no matching task,
`scheduleTask` fails with `NotFound` and the state — tasks, external calendar
and event store alike — is returned unchanged: no adapter call is made. -/
theorem scheduleTask_unknown_id (st : SchedState) (taskId : Nat) (slot : Slot)
    (h : retrieveTaskById st.tasks taskId = none) :
    scheduleTask st taskId slot = (Except.error SchedError.notFound, st) := by
  unfold scheduleTask
  rw [h]

/-- Witness for the C4 theorem on a concrete state without task 5. -/
theorem scheduleTask_unknown_id_witness :
    retrieveTaskById (SchedState.mk [Task.mk 1 "t" 2 false none] [] []).tasks 5 = none ∧
    scheduleTask (SchedState.mk [Task.mk 1 "t" 2 false none] [] []) 5 (Slot.mk 0 1) =
      (Except.error SchedError.notFound, SchedState.mk [Task.mk 1 "t" 2 false none] [] []) :=
  ⟨by decide, scheduleTask_unknown_id _ 5 (Slot.mk 0 1) (by decide)⟩

/-! ## Claim C5 -/

/-- Claim C5 evaluated at the failing input (code bug).  State: task 1 is
scheduled with `calendarEventId = 7`; the external calendar holds event 7 and
the event store holds its linked copy with `_id = 5`.  `unscheduleTask 1`
succeeds, removes event 7 from the external calendar and resets the task —
but the event-store copy survives, because the Mongo `deleteOne` is keyed on
the task's own `_id` (1), which matches no event document.  The claim (and the
specification) require the linked event to be removed from both adapters. -/
theorem unscheduleTask_leaves_event_store_copy :
    unscheduleTask
      (SchedState.mk [Task.mk 1 "T" 2 true (some 7)]
        [GEvent.mk 7 "T" 0 3600000 "Task ID: 1"]
        [MEvent.mk 5 "T" 0 3600000 "Task ID: 1" (some 7)]) 1 =
    (Except.ok "Task unscheduled successfully.",
      SchedState.mk [Task.mk 1 "T" 2 false none]
        []
        [MEvent.mk 5 "T" 0 3600000 "Task ID: 1" (some 7)]) := by
  rfl

/-- The no-op half of claim C5, which the code does satisfy up to state
equality: for an existing task that is already unscheduled (`scheduled =
false`, no `calendarEventId`), `unscheduleTask` succeeds, deletes nothing
from either adapter, and leaves the state unchanged (the `updateTaskData`
call rewrites the two fields with the values they already have). -/
theorem unscheduleTask_noop (st : SchedState) (taskId : Nat) (task : Task)
    (h : retrieveTaskById st.tasks taskId = some task)
    (hsched : task.scheduled = false) (hlink : task.calendarEventId = none) :
    unscheduleTask st taskId = (Except.ok "Task unscheduled successfully.", st) := by
  have hfa : ({ task with scheduled := false, calendarEventId := none } : Task) = task := by
    cases task
    dsimp only at hsched hlink
    subst hsched
    subst hlink
    rfl
  unfold retrieveTaskById at h
  unfold unscheduleTask retrieveTaskById
  rw [h]
  dsimp only
  rw [hlink]
  dsimp only
  rw [updateFirst_eq_self _ _ st.tasks task h hfa]

/-- Witness for the C5 no-op theorem on a concrete unscheduled task. -/
theorem unscheduleTask_noop_witness :
    (retrieveTaskById [Task.mk 3 "T" 1 false none] 3 = some (Task.mk 3 "T" 1 false none) ∧
      (Task.mk 3 "T" 1 false none).scheduled = false ∧
      (Task.mk 3 "T" 1 false none).calendarEventId = none) ∧
    unscheduleTask (SchedState.mk [Task.mk 3 "T" 1 false none] [] []) 3 =
      (Except.ok "Task unscheduled successfully.",
        SchedState.mk [Task.mk 3 "T" 1 false none] [] []) :=
  ⟨⟨by decide, by decide, by decide⟩,
    unscheduleTask_noop (SchedState.mk [Task.mk 3 "T" 1 false none] [] []) 3
      (Task.mk 3 "T" 1 false none) (by decide) (by decide) (by decide)⟩

/-! ## Claim C10 -/

/-- Every event id present in a calendar is strictly below the fresh id. -/
theorem mem_lt_freshGid (l : List GEvent) : ∀ g ∈ l, g.id < freshGid l := by
  intro g hg
  unfold freshGid
  have : g.id ≤ l.foldr (fun g acc => max g.id acc) 0 := by
    induction l with
    | nil => simp at hg
    | cons x xs ih =>
      rcases List.mem_cons.1 hg with h | h
      · subst h
        exact le_max_left _ _
      · exact le_trans (ih h) (le_max_right _ _)
  omega

/-- Every `_id` present in the events collection is strictly below the fresh
one. -/
theorem mem_lt_freshMid (l : List MEvent) : ∀ m ∈ l, m.mid < freshMid l := by
  intro m hm
  unfold freshMid
  have : m.mid ≤ l.foldr (fun m acc => max m.mid acc) 0 := by
    induction l with
    | nil => simp at hm
    | cons x xs ih =>
      rcases List.mem_cons.1 hm with h | h
      · subst h
        exact le_max_left _ _
      · exact le_trans (ih h) (le_max_right _ _)
  omega

/-- Finding after `updateFirst` with a predicate the update preserves yields
the updated first match. -/
theorem find?_updateFirst (p : α → Bool) (f : α → α) (l : List α)
    (hpf : ∀ x, p (f x) = p x) :
    (updateFirst p f l).find? p = (l.find? p).map f := by
  induction l with
  | nil => rfl
  | cons x xs ih =>
    cases hpx : p x with
    | true =>
      rw [updateFirst, if_pos hpx, List.find?_cons_of_pos _ (by rw [hpf]; exact hpx),
        List.find?_cons_of_pos _ hpx]
      rfl
    | false =>
      rw [updateFirst, if_neg (by simp [hpx]), List.find?_cons_of_neg _ (by simp [hpx]),
        List.find?_cons_of_neg _ (by simp [hpx]), ih]

/-- Claim C10.  `scheduleTask` does not require the task to be unscheduled:
for an existing task already scheduled with a linked calendar event,
a further call succeeds, appends a new event to the external calendar,
overwrites the task's `calendarEventId` with the new (fresh, hence different)
event id, and leaves the previously linked event behind in the calendar. -/
theorem scheduleTask_rescheduling (st : SchedState) (taskId : Nat) (slot : Slot)
    (task : Task) (oldId : Nat) (oldG : GEvent)
    (h : retrieveTaskById st.tasks taskId = some task)
    (hsch : task.scheduled = true)
    (hlink : task.calendarEventId = some oldId)
    (hmem : oldG ∈ st.google) (hid : oldG.id = oldId) :
    (scheduleTask st taskId slot).1 =
      Except.ok ("Task scheduled successfully. Calendar Event ID: " ++
        toString (freshGid st.google)) ∧
    (scheduleTask st taskId slot).2.google =
      st.google ++ [GEvent.mk (freshGid st.google) task.title slot.start slot.stop
        (taskDescription taskId)] ∧
    oldG ∈ (scheduleTask st taskId slot).2.google ∧
    retrieveTaskById (scheduleTask st taskId slot).2.tasks taskId =
      some { task with scheduled := true, calendarEventId := some (freshGid st.google) } ∧
    freshGid st.google ≠ oldId := by
  unfold retrieveTaskById at h
  unfold scheduleTask retrieveTaskById
  rw [h]
  dsimp only
  refine ⟨rfl, rfl, List.mem_append_left _ hmem, ?_, ?_⟩
  · rw [find?_updateFirst (fun t => t.tid == taskId)
      (fun t => { t with scheduled := true, calendarEventId := some (freshGid st.google) })
      st.tasks (by intro x; rfl), h]
    rfl
  · have := mem_lt_freshGid st.google oldG hmem
    omega

/-- Witness for the C10 theorem: task 1 is scheduled and linked to event 7;
re-scheduling succeeds and relinks it to the fresh event 8. -/
theorem scheduleTask_rescheduling_witness :
    (retrieveTaskById [Task.mk 1 "T" 2 true (some 7)] 1 =
        some (Task.mk 1 "T" 2 true (some 7)) ∧
      (Task.mk 1 "T" 2 true (some 7)).scheduled = true ∧
      (Task.mk 1 "T" 2 true (some 7)).calendarEventId = some 7 ∧
      GEvent.mk 7 "T" 0 1 "Task ID: 1" ∈ [GEvent.mk 7 "T" 0 1 "Task ID: 1"] ∧
      (GEvent.mk 7 "T" 0 1 "Task ID: 1").id = 7) ∧
    (GEvent.mk 7 "T" 0 1 "Task ID: 1" ∈
      (scheduleTask
        (SchedState.mk [Task.mk 1 "T" 2 true (some 7)]
          [GEvent.mk 7 "T" 0 1 "Task ID: 1"]
          [MEvent.mk 5 "T" 0 1 "Task ID: 1" (some 7)]) 1 (Slot.mk 10 20)).2.google ∧
      freshGid [GEvent.mk 7 "T" 0 1 "Task ID: 1"] ≠ 7) :=
  ⟨⟨by decide, by decide, by decide, by decide, by decide⟩,
    let h := scheduleTask_rescheduling
      (SchedState.mk [Task.mk 1 "T" 2 true (some 7)]
        [GEvent.mk 7 "T" 0 1 "Task ID: 1"]
        [MEvent.mk 5 "T" 0 1 "Task ID: 1" (some 7)]) 1 (Slot.mk 10 20)
      (Task.mk 1 "T" 2 true (some 7)) 7 (GEvent.mk 7 "T" 0 1 "Task ID: 1")
      (by decide) (by decide) (by decide) (by decide) (by decide)
    ⟨h.2.2.1, h.2.2.2.2⟩⟩

/-! ## Language progress tracker (`progress/language_tracker.js`)

The two functions of claim C9 are embedded together with the JavaScript
name-resolution rules that decide their behaviour: a `const` declared in a
function body shadows the module-level import for the whole body, and reading
a `const` inside its own initializer hits the temporal dead zone. -/

/-- A JavaScript runtime value, as far as the tracker needs: primitive data
and plain objects (property lists).  The object literal built by
`logWordsLearned` holds only data properties; there is no function
constructor because the code stores none on any object it builds. -/
inductive JsValue where
  | str : String → JsValue
  | num : Int → JsValue
  | date : Int → JsValue
  | obj : List (String × JsValue) → JsValue

/-- Errors surfaced by the embedded JavaScript semantics. -/
inductive JsError where
  | typeError
  | referenceError
deriving DecidableEq, Repr

/-- A binding visible in a scope: an initialized value, or a `let`/`const`
declared but not yet initialized (temporal dead zone). -/
inductive Binding where
  | value : JsValue → Binding
  | tdz : Binding

/-- Resolve an identifier against a scope (innermost first): a TDZ binding
raises a `ReferenceError`, an absent name resolves to nothing. -/
def resolveName (scope : List (String × Binding)) (n : String) :
    Except JsError (Option JsValue) :=
  match scope.find? (fun b => b.1 == n) with
  | some (_, Binding.tdz) => Except.error JsError.referenceError
  | some (_, Binding.value v) => Except.ok (some v)
  | none => Except.ok none

/-- Property lookup on a value: only objects have own data properties. -/
def getMember (v : JsValue) (n : String) : Option JsValue :=
  match v with
  | JsValue.obj props => (props.find? (fun p => p.1 == n)).map (fun p => p.2)
  | _ => none

/-- A stored language-progress record. -/
structure ProgressEntry where
  language : String
  date : Int
  wordCount : Int
deriving DecidableEq, Repr

/-- The property list of the object literal `{ language, date: today,
wordCount }` built on lines 16–20 of the tracker. -/
def progressRecordProps (language : String) (today : Int) (wordCount : Int) :
    List (String × JsValue) :=
  [("language", JsValue.str language), ("date", JsValue.date today),
    ("wordCount", JsValue.num wordCount)]

/-- Embeds `logWordsLearned(language, wordCount)` (tracker lines 11–28).  The
body declares `const progressData = {language, date, wordCount}`, which
shadows the imported `progress_data` module for the entire function body; the
call `progressData.storeProgressData(progressData)` therefore resolves the
identifier to the plain record, looks the property up on it, and — whether the
lookup yields nothing (it does: the literal has only the three data
properties) or a non-callable data value — throws a `TypeError`.  The store of
the `progress_data` module is threaded and returned so the theorem can state
that it is never written. -/
def logWordsLearned (store : List ProgressEntry) (language : String) (today : Int)
    (wordCount : Int) : Except JsError String × List ProgressEntry :=
  let localRecord := progressRecordProps language today wordCount
  match resolveName [("progressData", Binding.value (JsValue.obj localRecord))]
      "progressData" with
  | Except.error e => (Except.error e, store)
  | Except.ok none => (Except.error JsError.referenceError, store)
  | Except.ok (some v) =>
    match getMember v "storeProgressData" with
    | none => (Except.error JsError.typeError, store)
    | some _ => (Except.error JsError.typeError, store)

/-- Embeds `getMonthlyProgress(language)` (tracker lines 35–71).  The first
statement of the body is `const progressData = await
progressData.retrieveProgressData(...)`: the `progressData` read inside the
initializer refers to the very `const` being declared, which is still in its
temporal dead zone, so the body throws a `ReferenceError` before any store
access. -/
def getMonthlyProgress (store : List ProgressEntry) (language : String) :
    Except JsError Int × List ProgressEntry :=
  match resolveName [("progressData", Binding.tdz)] "progressData" with
  | Except.error e => (Except.error e, store)
  | Except.ok _ => (Except.error JsError.typeError, store)

/-! ## Claim C9 -/

/-- Claim C9.  For every store and every input, `logWordsLearned` never
returns its success confirmation: it always throws a `TypeError` (the
shadowing local record has no `storeProgressData` property) and leaves the
progress store untouched; and `getMonthlyProgress` always throws a
`ReferenceError` (its local `progressData` is read inside its own
initializer), also leaving the store untouched. -/
theorem languageTracker_always_throws (store : List ProgressEntry)
    (language : String) (today wordCount : Int) :
    logWordsLearned store language today wordCount =
      (Except.error JsError.typeError, store) ∧
    getMonthlyProgress store language =
      (Except.error JsError.referenceError, store) :=
  ⟨rfl, rfl⟩

/-! ## Calendar synchronization (`time/index.js`, `syncEvents`)

`syncEvents` fetches a snapshot of the Google events and a snapshot of the
Mongo events, builds a map from `googleEventId` to local event, then runs two
passes: Google→Mongo (insert or update local copies) and Mongo→Google
(create remote events for linked locals whose id is missing from the remote
snapshot, then write the new id back).  The embedding threads the two stores
and records every adapter mutation as a `SyncOp`. -/

/-- An adapter mutation performed by a synchronization run:
`insertLocal` embeds `mongoCalendar.insertEvent`, `updateLocal` embeds
pass 1's `mongoCalendar.updateEvent(mongoEvent._id, {...googleEvent, ...})`,
`createRemote` embeds `googleCalendar.createEvent`, and `linkLocal` embeds
pass 2's write-back of the new Google id. -/
inductive SyncOp where
  | insertLocal (m : MEvent)
  | updateLocal (mid : Nat) (g : GEvent)
  | createRemote (g : GEvent)
  | linkLocal (mid : Nat) (gid : Nat)
deriving DecidableEq, Repr

/-- Embeds `hasEventChanged` (lines 237–245): inequality on any of summary,
`start.dateTime`, `end.dateTime` or description. -/
def hasEventChanged (g : GEvent) (m : MEvent) : Bool :=
  g.summary != m.summary || g.startTime != m.startTime ||
    g.endTime != m.endTime || g.description != m.description

/-- Embeds the `mongoEventsMap` lookup of lines 173–178: the map is populated
by a `forEach` over the local snapshot that sets an entry for every event
carrying a `googleEventId`, so a later event overwrites an earlier one with
the same id — the lookup yields the last local event with the id. -/
def mongoEventsMapLookup (snapshot : List MEvent) (gid : Nat) : Option MEvent :=
  (snapshot.filter (fun m => m.googleEventId == some gid)).getLast?

/-- The local document written by pass 1: `{...googleEvent, googleEventId:
googleEvent.id}` with the given `_id`. -/
def gcopy (g : GEvent) (mid : Nat) : MEvent :=
  ⟨mid, g.summary, g.startTime, g.endTime, g.description, some g.id⟩

/-- The remote event created by pass 2's
`googleCalendar.createEvent(auth, calendarId, mongoEvent)`: the provider
stores the event's content under a fresh id of its choosing. -/
def gOfM (m : MEvent) (gid : Nat) : GEvent :=
  ⟨gid, m.summary, m.startTime, m.endTime, m.description⟩

/-- The `$set` of pass 2's write-back `{...mongoEvent, googleEventId:
newGoogleEvent.id}`, applied to the snapshot value of the local event. -/
def relink (m : MEvent) (gid : Nat) : MEvent :=
  { m with googleEventId := some gid }

/-- Pass 1 of `syncEvents` (lines 181–200): iterate the remote snapshot; for
each remote event, look it up in the map built over the local snapshot;
insert a local copy when absent, update the mapped local document (keyed by
its `_id`) when present and changed.  Only the Mongo store is threaded: pass 1
performs no Google operation. -/
def pass1 (snapshotLocal : List MEvent) :
    List GEvent → List MEvent → List MEvent × List SyncOp
  | [], mongo => (mongo, [])
  | g :: gs, mongo =>
    match mongoEventsMapLookup snapshotLocal g.id with
    | none =>
      let nm := gcopy g (freshMid mongo)
      let r := pass1 snapshotLocal gs (mongo ++ [nm])
      (r.1, SyncOp.insertLocal nm :: r.2)
    | some m =>
      if hasEventChanged g m then
        let r := pass1 snapshotLocal gs
          (updateFirst (fun d => d.mid == m.mid) (fun _ => gcopy g m.mid) mongo)
        (r.1, SyncOp.updateLocal m.mid g :: r.2)
      else pass1 snapshotLocal gs mongo

/-- Pass 2 of `syncEvents` (lines 202–222): iterate the local snapshot; skip
events with no `googleEventId`; for a linked event whose id is missing from
the **remote snapshot** (`googleEvents.find(...)` on the array fetched at the
start of the run), create a remote event with a fresh provider id and write
the new id back into the local document (keyed by its `_id`). -/
def pass2 (snapshotRemote : List GEvent) :
    List MEvent → List GEvent → List MEvent →
      List GEvent × List MEvent × List SyncOp
  | [], google, mongo => (google, mongo, [])
  | m :: ms, google, mongo =>
    match m.googleEventId with
    | none => pass2 snapshotRemote ms google mongo
    | some x =>
      match snapshotRemote.find? (fun g => g.id == x) with
      | some _ => pass2 snapshotRemote ms google mongo
      | none =>
        let nid := freshGid google
        let ng := gOfM m nid
        let r := pass2 snapshotRemote ms (google ++ [ng])
          (updateFirst (fun d => d.mid == m.mid) (fun _ => relink m nid) mongo)
        (r.1, r.2.1, SyncOp.createRemote ng :: SyncOp.linkLocal m.mid nid :: r.2.2)

/-- Embeds `syncEvents` (lines 156–229): both snapshots are taken once at the
start (they equal the current store contents); pass 1 runs to completion on
the remote snapshot, then pass 2 runs on the local snapshot; the final stores
and the concatenated operation trace are returned. -/
def syncEvents (google : List GEvent) (mongo : List MEvent) :
    (List GEvent × List MEvent) × List SyncOp :=
  let p1 := pass1 mongo google mongo
  let p2 := pass2 google mongo google p1.1
  ((p2.1, p2.2.1), p1.2 ++ p2.2.2)

/-- Whether an operation addresses the local document with the given `_id`. -/
def opTouchesLocal (op : SyncOp) (k : Nat) : Bool :=
  match op with
  | SyncOp.insertLocal m => m.mid == k
  | SyncOp.updateLocal mid _ => mid == k
  | SyncOp.createRemote _ => false
  | SyncOp.linkLocal mid _ => mid == k

/-! Basic facts about the passes. -/

/-- A successful map lookup returns a member of the snapshot that carries the
looked-up id. -/
theorem mongoEventsMapLookup_mem {snapshot : List MEvent} {gid : Nat} {m : MEvent}
    (h : mongoEventsMapLookup snapshot gid = some m) :
    m ∈ snapshot ∧ m.googleEventId = some gid := by
  unfold mongoEventsMapLookup at h
  have hx : m ∈ (snapshot.filter (fun d => d.googleEventId == some gid)).getLast? := h
  obtain ⟨hnil, heq⟩ := List.mem_getLast?_eq_getLast hx
  have hmem : m ∈ snapshot.filter (fun d => d.googleEventId == some gid) := by
    rw [heq]
    exact List.getLast_mem hnil
  have h1 := (List.mem_filter.1 hmem).1
  have h2 := (List.mem_filter.1 hmem).2
  exact ⟨h1, by simpa using h2⟩

/-- An element not satisfying the predicate survives `updateFirst`. -/
theorem mem_updateFirst_of_neg (p : α → Bool) (f : α → α) {l : List α} {a : α}
    (ha : a ∈ l) (hpa : p a = false) : a ∈ updateFirst p f l := by
  induction l with
  | nil => simp at ha
  | cons x xs ih =>
    rcases List.mem_cons.1 ha with h | h
    · subst h
      rw [updateFirst, if_neg (by simp [hpa])]
      exact List.mem_cons_self _ _
    · unfold updateFirst
      by_cases hpx : p x = true
      · rw [if_pos hpx]
        exact List.mem_cons_of_mem _ h
      · rw [if_neg hpx]
        exact List.mem_cons_of_mem _ (ih h)

/-- Pass 1 never touches, and never loses, a local event whose `_id` differs
from that of every linked event of the local snapshot. -/
theorem pass1_untouched (L : List MEvent) (m : MEvent)
    (hsm : ∀ d ∈ L, d.googleEventId.isSome → d.mid ≠ m.mid) :
    ∀ (gs : List GEvent) (mongo : List MEvent), m ∈ mongo →
      m ∈ (pass1 L gs mongo).1 ∧
      ∀ op ∈ (pass1 L gs mongo).2, opTouchesLocal op m.mid = false := by
  intro gs
  induction gs with
  | nil =>
    intro mongo hm
    exact ⟨hm, by intro op hop; simp [pass1] at hop⟩
  | cons g gs ih =>
    intro mongo hm
    unfold pass1
    cases hl : mongoEventsMapLookup L g.id with
    | none =>
      dsimp only
      have hfresh : m.mid < freshMid mongo := mem_lt_freshMid mongo m hm
      have hmem2 : m ∈ mongo ++ [gcopy g (freshMid mongo)] := List.mem_append_left _ hm
      have hr := ih (mongo ++ [gcopy g (freshMid mongo)]) hmem2
      refine ⟨hr.1, ?_⟩
      intro op hop
      rcases List.mem_cons.1 hop with h | h
      · subst h
        simp only [opTouchesLocal, gcopy, beq_eq_false_iff_ne]
        omega
      · exact hr.2 op h
    | some m₀ =>
      dsimp only
      have hm₀ := mongoEventsMapLookup_mem hl
      have hne : m₀.mid ≠ m.mid := hsm m₀ hm₀.1 (by rw [hm₀.2]; rfl)
      by_cases hch : hasEventChanged g m₀ = true
      · rw [if_pos hch]
        have hmem2 : m ∈ updateFirst (fun d => d.mid == m₀.mid)
            (fun _ => gcopy g m₀.mid) mongo :=
          mem_updateFirst_of_neg _ _ hm (by simp only [beq_eq_false_iff_ne]; omega)
        have hr := ih _ hmem2
        refine ⟨hr.1, ?_⟩
        intro op hop
        rcases List.mem_cons.1 hop with h | h
        · subst h
          simp only [opTouchesLocal, beq_eq_false_iff_ne]
          omega
        · exact hr.2 op h
      · rw [if_neg hch]
        exact ih mongo hm

/-- Pass 2 never touches, and never loses, a local event whose `_id` differs
from that of every linked event of the snapshot it iterates. -/
theorem pass2_untouched (R : List GEvent) (m : MEvent) :
    ∀ (ms : List MEvent) (google : List GEvent) (mongo : List MEvent),
      (∀ d ∈ ms, d.googleEventId.isSome → d.mid ≠ m.mid) → m ∈ mongo →
      m ∈ (pass2 R ms google mongo).2.1 ∧
      ∀ op ∈ (pass2 R ms google mongo).2.2, opTouchesLocal op m.mid = false := by
  intro ms
  induction ms with
  | nil =>
    intro google mongo _ hm
    exact ⟨hm, by intro op hop; simp [pass2] at hop⟩
  | cons m' ms ih =>
    intro google mongo hsm hm
    have hsm2 : ∀ d ∈ ms, d.googleEventId.isSome → d.mid ≠ m.mid :=
      fun d hd => hsm d (List.mem_cons_of_mem _ hd)
    unfold pass2
    cases hx : m'.googleEventId with
    | none => exact ih google mongo hsm2 hm
    | some x =>
      dsimp only
      have hne : m'.mid ≠ m.mid :=
        hsm m' (List.mem_cons_self _ _) (by rw [hx]; rfl)
      cases hf : R.find? (fun g => g.id == x) with
      | some g0 => exact ih google mongo hsm2 hm
      | none =>
        dsimp only
        have hmem2 : m ∈ updateFirst (fun d => d.mid == m'.mid)
            (fun _ => relink m' (freshGid google)) mongo :=
          mem_updateFirst_of_neg _ _ hm (by simp only [beq_eq_false_iff_ne]; omega)
        have hr := ih (google ++ [gOfM m' (freshGid google)]) _ hsm2 hmem2
        refine ⟨hr.1, ?_⟩
        intro op hop
        rcases List.mem_cons.1 hop with h | h
        · subst h
          rfl
        · rcases List.mem_cons.1 h with h2 | h2
          · subst h2
            simp only [opTouchesLocal, beq_eq_false_iff_ne]
            omega
          · exact hr.2 op h2

/-- Every operation emitted by pass 1 is a local mutation: an insert or an
update of the Mongo store. -/
theorem pass1_ops_shape (L : List MEvent) :
    ∀ (gs : List GEvent) (mongo : List MEvent), ∀ op ∈ (pass1 L gs mongo).2,
      (∃ m, op = SyncOp.insertLocal m) ∨ ∃ mid g, op = SyncOp.updateLocal mid g := by
  intro gs
  induction gs with
  | nil =>
    intro mongo op hop
    simp [pass1] at hop
  | cons g gs ih =>
    intro mongo op hop
    unfold pass1 at hop
    cases hl : mongoEventsMapLookup L g.id with
    | none =>
      rw [hl] at hop
      dsimp only at hop
      rcases List.mem_cons.1 hop with h | h
      · exact Or.inl ⟨_, h⟩
      · exact ih _ op h
    | some m₀ =>
      rw [hl] at hop
      dsimp only at hop
      by_cases hch : hasEventChanged g m₀ = true
      · rw [if_pos hch] at hop
        rcases List.mem_cons.1 hop with h | h
        · exact Or.inr ⟨_, _, h⟩
        · exact ih _ op h
      · rw [if_neg hch] at hop
        exact ih _ op hop

/-- Every operation emitted by pass 2 is a remote creation or a link
write-back. -/
theorem pass2_ops_shape (R : List GEvent) :
    ∀ (ms : List MEvent) (google : List GEvent) (mongo : List MEvent),
      ∀ op ∈ (pass2 R ms google mongo).2.2,
      (∃ g, op = SyncOp.createRemote g) ∨ ∃ mid gid, op = SyncOp.linkLocal mid gid := by
  intro ms
  induction ms with
  | nil =>
    intro google mongo op hop
    simp [pass2] at hop
  | cons m' ms ih =>
    intro google mongo op hop
    unfold pass2 at hop
    cases hx : m'.googleEventId with
    | none =>
      rw [hx] at hop
      exact ih _ _ op hop
    | some x =>
      rw [hx] at hop
      dsimp only at hop
      cases hf : R.find? (fun g => g.id == x) with
      | some g0 =>
        rw [hf] at hop
        exact ih _ _ op hop
      | none =>
        rw [hf] at hop
        dsimp only at hop
        rcases List.mem_cons.1 hop with h | h
        · exact Or.inl ⟨_, h⟩
        · rcases List.mem_cons.1 h with h2 | h2
          · exact Or.inr ⟨_, _, h2⟩
          · exact ih _ _ op h2

/-- Every remote creation emitted by pass 2 carries a provider-fresh id (not
an id of the remote snapshot) and originates from an event of the local
snapshot whose `googleEventId` is absent from the remote snapshot — the
absence check is evaluated against the snapshot `R`, never against the
evolving remote store. -/
theorem pass2_createRemote_origin (R : List GEvent) :
    ∀ (ms : List MEvent) (google : List GEvent) (mongo : List MEvent),
      (∀ r ∈ R, r ∈ google) →
      ∀ g, SyncOp.createRemote g ∈ (pass2 R ms google mongo).2.2 →
        g.id ∉ R.map GEvent.id ∧
        ∃ m ∈ ms, ∃ x, m.googleEventId = some x ∧
          R.find? (fun r => r.id == x) = none ∧
          g.summary = m.summary ∧ g.startTime = m.startTime ∧
          g.endTime = m.endTime ∧ g.description = m.description := by
  intro ms
  induction ms with
  | nil =>
    intro google mongo _ g hop
    simp [pass2] at hop
  | cons m' ms ih =>
    intro google mongo hsub g hop
    unfold pass2 at hop
    cases hx : m'.googleEventId with
    | none =>
      rw [hx] at hop
      obtain ⟨h1, m2, hm2, hrest⟩ := ih _ _ hsub g hop
      exact ⟨h1, m2, List.mem_cons_of_mem _ hm2, hrest⟩
    | some x =>
      rw [hx] at hop
      dsimp only at hop
      cases hf : R.find? (fun g => g.id == x) with
      | some g0 =>
        rw [hf] at hop
        obtain ⟨h1, m2, hm2, hrest⟩ := ih _ _ hsub g hop
        exact ⟨h1, m2, List.mem_cons_of_mem _ hm2, hrest⟩
      | none =>
        rw [hf] at hop
        dsimp only at hop
        rcases List.mem_cons.1 hop with h | h
        · have hgeq : g = gOfM m' (freshGid google) := by
            injection h
          subst hgeq
          constructor
          · intro hmem
            obtain ⟨r, hr, hrid⟩ := List.mem_map.1 hmem
            have := mem_lt_freshGid google r (hsub r hr)
            simp only [gOfM] at hrid
            omega
          · exact ⟨m', List.mem_cons_self _ _, x, hx, hf, rfl, rfl, rfl, rfl⟩
        · rcases List.mem_cons.1 h with h2 | h2
          · exact absurd h2 (by simp)
          · have hsub2 : ∀ r ∈ R, r ∈ google ++ [gOfM m' (freshGid google)] :=
              fun r hr => List.mem_append_left _ (hsub r hr)
            obtain ⟨h1, m2, hm2, hrest⟩ := ih _ _ hsub2 g h2
            exact ⟨h1, m2, List.mem_cons_of_mem _ hm2, hrest⟩

/-! ## Claim C6 -/

/-- Claim C6.  Every synchronization run's trace decomposes as the complete
remote-to-local pass (only local inserts and updates) followed by the
local-to-remote pass (only remote creations and link write-backs); and every
remote creation of the second pass is triggered by a local-snapshot event
whose `googleEventId` is absent from the remote snapshot fetched at the start
of the run — never by the partially-applied remote state — and carries an id
that is not in that snapshot, so an event created during the run is never
itself treated as missing within the run. -/
theorem syncEvents_snapshot_discipline (google : List GEvent) (mongo : List MEvent) :
    ∃ localOps remoteOps,
      (syncEvents google mongo).2 = localOps ++ remoteOps ∧
      (∀ op ∈ localOps,
        (∃ m, op = SyncOp.insertLocal m) ∨ ∃ mid g, op = SyncOp.updateLocal mid g) ∧
      (∀ op ∈ remoteOps,
        (∃ g, op = SyncOp.createRemote g) ∨ ∃ mid gid, op = SyncOp.linkLocal mid gid) ∧
      (∀ g, SyncOp.createRemote g ∈ remoteOps →
        g.id ∉ google.map GEvent.id ∧
        ∃ m ∈ mongo, ∃ x, m.googleEventId = some x ∧
          google.find? (fun r => r.id == x) = none ∧
          g.summary = m.summary ∧ g.startTime = m.startTime ∧
          g.endTime = m.endTime ∧ g.description = m.description) := by
  refine ⟨(pass1 mongo google mongo).2,
    (pass2 google mongo google (pass1 mongo google mongo).1).2.2, rfl,
    fun op hop => pass1_ops_shape mongo google mongo op hop,
    fun op hop => pass2_ops_shape google mongo google _ op hop,
    fun g hop => pass2_createRemote_origin google mongo google _
      (fun r hr => hr) g hop⟩

/-! ## Claim C8 -/

/-- Claim C8.  In a local store with pairwise-distinct `_id`s, a local event
with no `googleEventId` is left untouched by a synchronization run: it is
still present (unchanged) in the resulting store, and no emitted operation —
no insert, no update, no remote creation, no link write-back — addresses its
`_id`. -/
theorem syncEvents_skips_unlinked (google : List GEvent) (mongo : List MEvent)
    (hmid : (mongo.map MEvent.mid).Nodup) (m : MEvent) (hm : m ∈ mongo)
    (hnone : m.googleEventId = none) :
    m ∈ (syncEvents google mongo).1.2 ∧
    ∀ op ∈ (syncEvents google mongo).2, opTouchesLocal op m.mid = false := by
  have hsm : ∀ d ∈ mongo, d.googleEventId.isSome → d.mid ≠ m.mid := by
    intro d hd hsome heq
    have : d = m := List.inj_on_of_nodup_map hmid hd hm heq
    rw [this, hnone] at hsome
    simp at hsome
  unfold syncEvents
  have h1 := pass1_untouched mongo m hsm google mongo hm
  have h2 := pass2_untouched google m mongo google (pass1 mongo google mongo).1 hsm h1.1
  refine ⟨h2.1, ?_⟩
  intro op hop
  rcases List.mem_append.1 hop with h | h
  · exact h1.2 op h
  · exact h2.2 op h

/-- Witness for the C8 theorem: the unlinked local event 9 survives a run that
inserts a copy of the remote event 1 and leaves event 9 alone. -/
theorem syncEvents_skips_unlinked_witness :
    (([MEvent.mk 9 "keep" 0 1 "" none].map MEvent.mid).Nodup ∧
      MEvent.mk 9 "keep" 0 1 "" none ∈ [MEvent.mk 9 "keep" 0 1 "" none] ∧
      (MEvent.mk 9 "keep" 0 1 "" none).googleEventId = none) ∧
    MEvent.mk 9 "keep" 0 1 "" none ∈
      (syncEvents [GEvent.mk 1 "new" 5 6 "d"] [MEvent.mk 9 "keep" 0 1 "" none]).1.2 :=
  ⟨⟨by decide, by decide, by decide⟩,
    (syncEvents_skips_unlinked [GEvent.mk 1 "new" 5 6 "d"]
      [MEvent.mk 9 "keep" 0 1 "" none] (by decide)
      (MEvent.mk 9 "keep" 0 1 "" none) (by decide) (by decide)).1⟩

/-! ## Claim C3: idempotence infrastructure

The analysis of a run tracks, for every Google id `x`, the sublist of local
events linked to `x` (`sel x`), because the map lookup of pass 1 is the last
element of that sublist. -/

/-- The local events carrying the Google id `x`, in store order. -/
def sel (x : Nat) (M : List MEvent) : List MEvent :=
  M.filter (fun m => m.googleEventId == some x)

theorem mongoEventsMapLookup_eq_sel (M : List MEvent) (x : Nat) :
    mongoEventsMapLookup M x = (sel x M).getLast? := rfl

theorem sel_append (x : Nat) (a b : List MEvent) :
    sel x (a ++ b) = sel x a ++ sel x b := List.filter_append _ _

/-- A local copy of a remote event is up to date. -/
theorem hasEventChanged_gcopy (g : GEvent) (k : Nat) :
    hasEventChanged g (gcopy g k) = false := by
  simp [hasEventChanged, gcopy]

/-- A remote event created from a local one matches its relinked local. -/
theorem hasEventChanged_gOfM_relink (m : MEvent) (nid : Nat) :
    hasEventChanged (gOfM m nid) (relink m nid) = false := by
  simp [hasEventChanged, gOfM, relink]

/-- `updateFirst` on a store with pairwise-distinct `_id`s, keyed on the
`_id` of a member, splits the store around that member. -/
theorem updateFirst_mid_decomp (mongo : List MEvent) (m₀ : MEvent) (f : MEvent → MEvent)
    (hnd : (mongo.map MEvent.mid).Nodup) (hmem : m₀ ∈ mongo) :
    ∃ pre post, mongo = pre ++ m₀ :: post ∧
      updateFirst (fun d => d.mid == m₀.mid) f mongo = pre ++ f m₀ :: post ∧
      (∀ d ∈ pre, d.mid ≠ m₀.mid) ∧ (∀ d ∈ post, d.mid ≠ m₀.mid) := by
  induction mongo with
  | nil => simp at hmem
  | cons x xs ih =>
    rw [List.map_cons, List.nodup_cons] at hnd
    by_cases hx : x.mid = m₀.mid
    · have hxeq : x = m₀ := by
        rcases List.mem_cons.1 hmem with h | h
        · exact h.symm
        · exfalso
          exact hnd.1 (hx ▸ List.mem_map.2 ⟨m₀, h, rfl⟩)
      subst hxeq
      refine ⟨[], xs, rfl, ?_, by simp, ?_⟩
      · rw [updateFirst, if_pos (by simp)]
        rfl
      · intro d hd heq
        exact hnd.1 (heq ▸ List.mem_map.2 ⟨d, hd, rfl⟩)
    · have hmem2 : m₀ ∈ xs := by
        rcases List.mem_cons.1 hmem with h | h
        · exact absurd (h ▸ rfl) hx
        · exact h
      obtain ⟨pre, post, he1, he2, hp1, hp2⟩ := ih hnd.2 hmem2
      refine ⟨x :: pre, post, by rw [List.cons_append, he1], ?_, ?_, hp2⟩
      · rw [updateFirst, if_neg (by simp [hx]), he2]
        rfl
      · intro d hd
        rcases List.mem_cons.1 hd with h | h
        · exact h ▸ hx
        · exact hp1 d h

/-- Appending an event with a fresh `_id` preserves `_id` distinctness. -/
theorem nodup_mids_snoc (mongo : List MEvent) (nm : MEvent)
    (hnd : (mongo.map MEvent.mid).Nodup) (hf : ∀ d ∈ mongo, d.mid ≠ nm.mid) :
    ((mongo ++ [nm]).map MEvent.mid).Nodup := by
  rw [List.map_append]
  apply List.Nodup.append hnd (by simp)
  intro a ha hb
  obtain ⟨d, hd, hdeq⟩ := List.mem_map.1 ha
  simp only [List.map_cons, List.map_nil, List.mem_singleton] at hb
  subst hdeq
  exact hf d hd hb

/-- Replacing an element by one with the same `_id` preserves the `_id`
list. -/
theorem nodup_mids_replace (pre post : List MEvent) (m₀ v : MEvent)
    (hv : v.mid = m₀.mid) (hnd : ((pre ++ m₀ :: post).map MEvent.mid).Nodup) :
    ((pre ++ v :: post).map MEvent.mid).Nodup := by
  have h : (pre ++ v :: post).map MEvent.mid = (pre ++ m₀ :: post).map MEvent.mid := by
    simp [hv]
  rw [h]
  exact hnd

/-- Pass 1 with a snapshot in which every processed remote event finds an
unchanged local copy performs no operation and leaves the store alone. -/
theorem pass1_no_ops (L : List MEvent) :
    ∀ (gs : List GEvent) (mongo : List MEvent),
      (∀ g ∈ gs, ∃ m, mongoEventsMapLookup L g.id = some m ∧
        hasEventChanged g m = false) →
      pass1 L gs mongo = (mongo, []) := by
  intro gs
  induction gs with
  | nil => intro mongo _; rfl
  | cons g gs ih =>
    intro mongo h
    obtain ⟨m, hl, hch⟩ := h g (List.mem_cons_self _ _)
    unfold pass1
    rw [hl]
    dsimp only
    rw [if_neg (by simp [hch])]
    exact ih mongo (fun g2 hg2 => h g2 (List.mem_cons_of_mem _ hg2))

/-- Pass 2 with a snapshot in which every linked local event finds its remote
event performs no operation and leaves the stores alone. -/
theorem pass2_no_ops (R : List GEvent) :
    ∀ (ms : List MEvent) (google : List GEvent) (mongo : List MEvent),
      (∀ m ∈ ms, ∀ x, m.googleEventId = some x →
        (R.find? (fun g => g.id == x)).isSome) →
      pass2 R ms google mongo = (google, mongo, []) := by
  intro ms
  induction ms with
  | nil => intro google mongo _; rfl
  | cons m' ms ih =>
    intro google mongo h
    unfold pass2
    cases hx : m'.googleEventId with
    | none => exact ih google mongo (fun m2 h2 => h m2 (List.mem_cons_of_mem _ h2))
    | some x =>
      dsimp only
      have hs := h m' (List.mem_cons_self _ _) x hx
      cases hf : R.find? (fun g => g.id == x) with
      | none => rw [hf] at hs; simp at hs
      | some g0 => exact ih google mongo (fun m2 h2 => h m2 (List.mem_cons_of_mem _ h2))

theorem sel_cons_of_eq (x : Nat) (m : MEvent) (l : List MEvent)
    (h : m.googleEventId = some x) : sel x (m :: l) = m :: sel x l :=
  List.filter_cons_of_pos (by simp [h])

theorem sel_cons_of_ne (x : Nat) (m : MEvent) (l : List MEvent)
    (h : m.googleEventId ≠ some x) : sel x (m :: l) = sel x l :=
  List.filter_cons_of_neg (by simp [h])

/-- Main invariant of pass 1, by induction on the remaining remote events.
Given pairwise-distinct remote ids, pairwise-distinct local `_id`s, and a
store that agrees with the snapshot on the link-classes of the remaining
remote ids, the final store (N) keeps `_id`s distinct; (I) holds an unchanged
copy of every remaining remote event as the last element of its link-class;
(F) leaves the link-class of every untouched id unchanged; (G) only contains
old events or copies of remaining remote events; and (K) retains every event
linked to none of the remaining remote ids. -/
theorem pass1_main (L : List MEvent) :
    ∀ (gs : List GEvent) (mongo : List MEvent),
      (gs.map GEvent.id).Nodup →
      (mongo.map MEvent.mid).Nodup →
      (∀ g ∈ gs, sel g.id mongo = sel g.id L) →
      ((pass1 L gs mongo).1.map MEvent.mid).Nodup ∧
      (∀ g ∈ gs, ∃ m, mongoEventsMapLookup (pass1 L gs mongo).1 g.id = some m ∧
        hasEventChanged g m = false) ∧
      (∀ x, (∀ g ∈ gs, g.id ≠ x) → sel x (pass1 L gs mongo).1 = sel x mongo) ∧
      (∀ m ∈ (pass1 L gs mongo).1, m ∈ mongo ∨ ∃ g ∈ gs, m.googleEventId = some g.id) ∧
      (∀ m ∈ mongo, (∀ g ∈ gs, m.googleEventId ≠ some g.id) →
        m ∈ (pass1 L gs mongo).1) := by
  intro gs
  induction gs with
  | nil =>
    intro mongo _ hnd _
    refine ⟨hnd, by simp, fun x _ => rfl, fun m hm => Or.inl hm, fun m hm _ => hm⟩
  | cons g gs ih =>
    intro mongo hids hnd hsel
    rw [List.map_cons, List.nodup_cons] at hids
    have hgid : ∀ g2 ∈ gs, g2.id ≠ g.id :=
      fun g2 h2 heq => hids.1 (heq ▸ List.mem_map.2 ⟨g2, h2, rfl⟩)
    have hsel_g : sel g.id mongo = sel g.id L := hsel g (List.mem_cons_self _ _)
    unfold pass1
    cases hl : mongoEventsMapLookup L g.id with
    | none =>
      dsimp only
      have hLnil : sel g.id L = [] := by
        rw [mongoEventsMapLookup_eq_sel] at hl
        exact List.getLast?_eq_none_iff.1 hl
      have hnmgea : (gcopy g (freshMid mongo)).googleEventId = some g.id := rfl
      have hself : sel g.id (mongo ++ [gcopy g (freshMid mongo)]) =
          [gcopy g (freshMid mongo)] := by
        rw [sel_append, hsel_g, hLnil, List.nil_append,
          sel_cons_of_eq _ _ _ hnmgea]
        rfl
      have hfr : ∀ x, x ≠ g.id → sel x (mongo ++ [gcopy g (freshMid mongo)]) =
          sel x mongo := by
        intro x hx
        rw [sel_append, sel_cons_of_ne _ _ _ (by simp [gcopy]; omega)]
        simp [sel]
      have hnd2 : ((mongo ++ [gcopy g (freshMid mongo)]).map MEvent.mid).Nodup := by
        apply nodup_mids_snoc mongo _ hnd
        intro d hd
        have := mem_lt_freshMid mongo d hd
        simp only [gcopy]
        omega
      have hsel2 : ∀ g2 ∈ gs, sel g2.id (mongo ++ [gcopy g (freshMid mongo)]) =
          sel g2.id L := by
        intro g2 h2
        rw [hfr g2.id (hgid g2 h2), hsel g2 (List.mem_cons_of_mem _ h2)]
      obtain ⟨hN, hI, hF, hG, hK⟩ := ih (mongo ++ [gcopy g (freshMid mongo)])
        hids.2 hnd2 hsel2
      refine ⟨hN, ?_, ?_, ?_, ?_⟩
      · intro g2 hg2
        rcases List.mem_cons.1 hg2 with h | h
        · subst h
          refine ⟨gcopy g2 (freshMid mongo), ?_, hasEventChanged_gcopy g2 _⟩
          rw [mongoEventsMapLookup_eq_sel, hF g2.id (fun g3 h3 => hgid g3 h3), hself]
          rfl
        · exact hI g2 h
      · intro x hx
        rw [hF x (fun g2 h2 => hx g2 (List.mem_cons_of_mem _ h2)),
          hfr x (Ne.symm (hx g (List.mem_cons_self _ _)))]
      · intro m hm
        rcases hG m hm with h | ⟨g2, h2, h3⟩
        · rcases List.mem_append.1 h with h4 | h4
          · exact Or.inl h4
          · have hmeq : m = gcopy g (freshMid mongo) := by simpa using h4
            exact Or.inr ⟨g, List.mem_cons_self _ _, by rw [hmeq]; rfl⟩
        · exact Or.inr ⟨g2, List.mem_cons_of_mem _ h2, h3⟩
      · intro m hm hno
        exact hK m (List.mem_append_left _ hm)
          (fun g2 h2 => hno g2 (List.mem_cons_of_mem _ h2))
    | some m₀ =>
      dsimp only
      have hm₀L := mongoEventsMapLookup_mem hl
      have hlast : (sel g.id mongo).getLast? = some m₀ := by
        rw [hsel_g, ← mongoEventsMapLookup_eq_sel]
        exact hl
      have hm₀mongo : m₀ ∈ mongo := by
        obtain ⟨hnil, heq⟩ := List.mem_getLast?_eq_getLast (show m₀ ∈ _ from hlast)
        have : m₀ ∈ sel g.id mongo := heq ▸ List.getLast_mem hnil
        exact (List.mem_filter.1 this).1
      by_cases hch : hasEventChanged g m₀ = true
      · rw [if_pos hch]
        obtain ⟨pre, post, hd1, hd2, hp1, hp2⟩ :=
          updateFirst_mid_decomp mongo m₀ (fun _ => gcopy g m₀.mid) hnd hm₀mongo
        rw [hd2]
        have hpostnil : sel g.id post = [] := by
          cases hsp : sel g.id post with
          | nil => rfl
          | cons d ds =>
            exfalso
            rw [hd1, sel_append, sel_cons_of_eq _ _ _ hm₀L.2, hsp] at hlast
            rw [List.getLast?_append_of_ne_nil _ (by simp)] at hlast
            rw [show m₀ :: d :: ds = [m₀] ++ (d :: ds) from rfl,
              List.getLast?_append_of_ne_nil _ (by simp)] at hlast
            have hdlast : (d :: ds).getLast (by simp) ∈ d :: ds :=
              List.getLast_mem _
            obtain ⟨hnil, heq⟩ := List.mem_getLast?_eq_getLast
              (show m₀ ∈ (d :: ds).getLast? from hlast)
            have hmem2 : m₀ ∈ d :: ds := heq ▸ List.getLast_mem hnil
            rw [← hsp] at hmem2
            have : m₀ ∈ post := (List.mem_filter.1 hmem2).1
            exact hp2 m₀ this rfl
        have hselg2 : sel g.id (pre ++ gcopy g m₀.mid :: post) =
            sel g.id pre ++ [gcopy g m₀.mid] := by
          rw [sel_append, sel_cons_of_eq _ _ _ rfl, hpostnil]
        have hfr : ∀ x, x ≠ g.id → sel x (pre ++ gcopy g m₀.mid :: post) =
            sel x mongo := by
          intro x hx
          rw [hd1, sel_append, sel_append]
          congr 1
          rw [sel_cons_of_ne _ _ _ (by
              simp only [gcopy, ne_eq, Option.some.injEq]
              omega),
            sel_cons_of_ne _ _ _ (by
              rw [hm₀L.2]
              simp only [ne_eq, Option.some.injEq]
              omega)]
        have hnd2 : ((pre ++ gcopy g m₀.mid :: post).map MEvent.mid).Nodup :=
          nodup_mids_replace pre post m₀ _ rfl (hd1 ▸ hnd)
        have hsel2 : ∀ g2 ∈ gs, sel g2.id (pre ++ gcopy g m₀.mid :: post) =
            sel g2.id L := by
          intro g2 h2
          rw [hfr g2.id (hgid g2 h2), hsel g2 (List.mem_cons_of_mem _ h2)]
        obtain ⟨hN, hI, hF, hG, hK⟩ := ih (pre ++ gcopy g m₀.mid :: post)
          hids.2 hnd2 hsel2
        refine ⟨hN, ?_, ?_, ?_, ?_⟩
        · intro g2 hg2
          rcases List.mem_cons.1 hg2 with h | h
          · subst h
            refine ⟨gcopy g2 m₀.mid, ?_, hasEventChanged_gcopy g2 _⟩
            rw [mongoEventsMapLookup_eq_sel, hF g2.id (fun g3 h3 => hgid g3 h3),
              hselg2, List.getLast?_concat]
          · exact hI g2 h
        · intro x hx
          rw [hF x (fun g2 h2 => hx g2 (List.mem_cons_of_mem _ h2)),
            hfr x (Ne.symm (hx g (List.mem_cons_self _ _)))]
        · intro m hm
          rcases hG m hm with h | ⟨g2, h2, h3⟩
          · rcases List.mem_append.1 h with h4 | h4
            · exact Or.inl (hd1 ▸ List.mem_append_left _ h4)
            · rcases List.mem_cons.1 h4 with h5 | h5
              · exact Or.inr ⟨g, List.mem_cons_self _ _, by rw [h5]; rfl⟩
              · exact Or.inl (hd1 ▸ List.mem_append_right _ (List.mem_cons_of_mem _ h5))
          · exact Or.inr ⟨g2, List.mem_cons_of_mem _ h2, h3⟩
        · intro m hm hno
          have hmne : m ≠ m₀ := by
            intro heq
            exact hno g (List.mem_cons_self _ _) (heq ▸ hm₀L.2)
          have hm2 : m ∈ pre ++ gcopy g m₀.mid :: post := by
            rw [hd1] at hm
            rcases List.mem_append.1 hm with h4 | h4
            · exact List.mem_append_left _ h4
            · rcases List.mem_cons.1 h4 with h5 | h5
              · exact absurd h5 hmne
              · exact List.mem_append_right _ (List.mem_cons_of_mem _ h5)
          exact hK m hm2 (fun g2 h2 => hno g2 (List.mem_cons_of_mem _ h2))
      · rw [if_neg hch]
        have hsel2 : ∀ g2 ∈ gs, sel g2.id mongo = sel g2.id L :=
          fun g2 h2 => hsel g2 (List.mem_cons_of_mem _ h2)
        obtain ⟨hN, hI, hF, hG, hK⟩ := ih mongo hids.2 hnd hsel2
        refine ⟨hN, ?_, ?_, ?_, ?_⟩
        · intro g2 hg2
          rcases List.mem_cons.1 hg2 with h | h
          · subst h
            refine ⟨m₀, ?_, by simpa using hch⟩
            rw [mongoEventsMapLookup_eq_sel, hF g2.id (fun g3 h3 => hgid g3 h3), hlast]
          · exact hI g2 h
        · intro x hx
          exact hF x (fun g2 h2 => hx g2 (List.mem_cons_of_mem _ h2))
        · intro m hm
          rcases hG m hm with h | ⟨g2, h2, h3⟩
          · exact Or.inl h
          · exact Or.inr ⟨g2, List.mem_cons_of_mem _ h2, h3⟩
        · intro m hm hno
          exact hK m hm (fun g2 h2 => hno g2 (List.mem_cons_of_mem _ h2))

/-- Whether pass 2 will create a remote event for this local event: it is
linked, but its id is absent from the remote snapshot. -/
def staleFor (R : List GEvent) (m : MEvent) : Bool :=
  match m.googleEventId with
  | none => false
  | some x => (R.find? (fun g => g.id == x)).isNone

theorem staleFor_of_missing {R : List GEvent} {m : MEvent} {x : Nat}
    (h : m.googleEventId = some x) (hf : R.find? (fun g => g.id == x) = none) :
    staleFor R m = true := by
  simp [staleFor, h, hf]

theorem staleFor_some {R : List GEvent} {m : MEvent} {x : Nat}
    (h : m.googleEventId = some x) :
    staleFor R m = (R.find? (fun g => g.id == x)).isNone := by
  unfold staleFor
  rw [h]

/-- Removing a non-stale event from the pending set does not change the
pending filter. -/
theorem filter_pending_cons (R : List GEvent) (m' : MEvent) (ms mongo : List MEvent)
    (hstale : staleFor R m' = false) :
    mongo.filter (fun m => !(decide (m ∈ m' :: ms) && staleFor R m)) =
      mongo.filter (fun m => !(decide (m ∈ ms) && staleFor R m)) := by
  apply List.filter_congr
  intro d _
  by_cases hds : staleFor R d = true
  · have hdne : d ≠ m' := by
      intro heq
      rw [heq, hstale] at hds
      exact absurd hds (by simp)
    simp [hds, List.mem_cons, hdne]
  · rw [Bool.not_eq_true] at hds
    simp [hds]

/-- Specialization of `List.filter_cons_of_pos` to the pending filter, to pin
down the filtering predicate. -/
theorem filter_pending_cons_pos (R : List GEvent) (ms : List MEvent) (a : MEvent)
    (l : List MEvent) (h : (!(decide (a ∈ ms) && staleFor R a)) = true) :
    (a :: l).filter (fun m => !(decide (m ∈ ms) && staleFor R m)) =
      a :: l.filter (fun m => !(decide (m ∈ ms) && staleFor R m)) :=
  List.filter_cons_of_pos h

/-- Specialization of `List.filter_cons_of_neg` to the pending filter. -/
theorem filter_pending_cons_neg (R : List GEvent) (ms : List MEvent) (a : MEvent)
    (l : List MEvent) (h : (!(decide (a ∈ ms) && staleFor R a)) = false) :
    (a :: l).filter (fun m => !(decide (m ∈ ms) && staleFor R m)) =
      l.filter (fun m => !(decide (m ∈ ms) && staleFor R m)) :=
  List.filter_cons_of_neg (by simp [h])

/-- On a segment free of the processed event, the pending filter with and
without that event agree. -/
theorem filter_pending_congr_seg (R : List GEvent) (m' : MEvent) (ms seg : List MEvent)
    (hne : ∀ d ∈ seg, d ≠ m') :
    seg.filter (fun m => !(decide (m ∈ m' :: ms) && staleFor R m)) =
      seg.filter (fun m => !(decide (m ∈ ms) && staleFor R m)) := by
  apply List.filter_congr
  intro d hd
  have := hne d hd
  simp [List.mem_cons, this]

/-- Main invariant of pass 2, by induction on the remaining snapshot events.
Under distinct `_id`s on the store and on the snapshot, with every stale
snapshot event still present unchanged in the store, the remote snapshot
contained in the remote store, and every linked store event either already
remote or pending in the snapshot: the final remote store extends the current
one with created events each of which has an up-to-date last local copy; every
linked local event points into the final remote store; and the link-class of
every current remote id ends up equal to its current value restricted to
non-pending events. -/
theorem pass2_main (R : List GEvent) :
    ∀ (ms : List MEvent) (google : List GEvent) (mongo : List MEvent),
      (mongo.map MEvent.mid).Nodup →
      (ms.map MEvent.mid).Nodup →
      (∀ m' ∈ ms, staleFor R m' = true → m' ∈ mongo) →
      (∀ r ∈ R, r ∈ google) →
      (∀ m ∈ mongo, ∀ x, m.googleEventId = some x →
        x ∈ google.map GEvent.id ∨ m ∈ ms) →
      (∃ created, (pass2 R ms google mongo).1 = google ++ created ∧
        ∀ g ∈ created, ∃ m,
          mongoEventsMapLookup (pass2 R ms google mongo).2.1 g.id = some m ∧
          hasEventChanged g m = false) ∧
      (∀ m ∈ (pass2 R ms google mongo).2.1, ∀ x, m.googleEventId = some x →
        x ∈ ((pass2 R ms google mongo).1).map GEvent.id) ∧
      (∀ x, x ∈ google.map GEvent.id →
        sel x (pass2 R ms google mongo).2.1 =
          sel x (mongo.filter (fun m => !(decide (m ∈ ms) && staleFor R m)))) := by
  intro ms
  induction ms with
  | nil =>
    intro google mongo _ _ _ _ h4
    refine ⟨⟨[], by simp [pass2], by simp⟩, ?_, ?_⟩
    · intro m hm x hx
      rcases h4 m hm x hx with h | h
      · exact h
      · simp at h
    · intro x _
      rw [List.filter_eq_self.2 (by intro m _; simp)]
      rfl
  | cons m' ms ih =>
    intro google mongo h1 h6 h2 h3 h4
    rw [List.map_cons, List.nodup_cons] at h6
    unfold pass2
    cases hx : m'.googleEventId with
    | none =>
      dsimp only
      have hstale : staleFor R m' = false := by simp [staleFor, hx]
      have h2t : ∀ d ∈ ms, staleFor R d = true → d ∈ mongo :=
        fun d hd => h2 d (List.mem_cons_of_mem _ hd)
      have h4t : ∀ m ∈ mongo, ∀ y, m.googleEventId = some y →
          y ∈ google.map GEvent.id ∨ m ∈ ms := by
        intro m hm y hy
        rcases h4 m hm y hy with h | h
        · exact Or.inl h
        · rcases List.mem_cons.1 h with h5 | h5
          · rw [h5, hx] at hy
            simp at hy
          · exact Or.inr h5
      obtain ⟨⟨created, hc1, hc2⟩, hC2, hC5⟩ := ih google mongo h1 h6.2 h2t h3 h4t
      refine ⟨⟨created, hc1, hc2⟩, hC2, ?_⟩
      intro y hy
      rw [hC5 y hy, filter_pending_cons R m' ms mongo hstale]
    | some x =>
      dsimp only
      cases hf : R.find? (fun g => g.id == x) with
      | some g0 =>
        dsimp only
        have hstale : staleFor R m' = false := by simp [staleFor, hx, hf]
        have h2t : ∀ d ∈ ms, staleFor R d = true → d ∈ mongo :=
          fun d hd => h2 d (List.mem_cons_of_mem _ hd)
        have hg0 := List.find?_some hf
        have hg0mem := List.mem_of_find?_eq_some hf
        have h4t : ∀ m ∈ mongo, ∀ y, m.googleEventId = some y →
            y ∈ google.map GEvent.id ∨ m ∈ ms := by
          intro m hm y hy
          rcases h4 m hm y hy with h | h
          · exact Or.inl h
          · rcases List.mem_cons.1 h with h5 | h5
            · left
              rw [h5, hx] at hy
              injection hy with hy
              subst hy
              refine List.mem_map.2 ⟨g0, h3 g0 hg0mem, ?_⟩
              simpa using hg0
            · exact Or.inr h5
        obtain ⟨⟨created, hc1, hc2⟩, hC2, hC5⟩ := ih google mongo h1 h6.2 h2t h3 h4t
        refine ⟨⟨created, hc1, hc2⟩, hC2, ?_⟩
        intro y hy
        rw [hC5 y hy, filter_pending_cons R m' ms mongo hstale]
      | none =>
        dsimp only
        have hstale : staleFor R m' = true := staleFor_of_missing hx hf
        have hm'mongo : m' ∈ mongo := h2 m' (List.mem_cons_self _ _) hstale
        obtain ⟨pre, post, hd1, hd2, hp1, hp2⟩ :=
          updateFirst_mid_decomp mongo m' (fun _ => relink m' (freshGid google)) h1 hm'mongo
        rw [hd2]
        have hnidR : ∀ g ∈ R, g.id ≠ freshGid google := by
          intro g hg
          have := mem_lt_freshGid google g (h3 g hg)
          omega
        have hnidG : freshGid google ∉ google.map GEvent.id := by
          intro hmem
          obtain ⟨r, hr, hrid⟩ := List.mem_map.1 hmem
          have := mem_lt_freshGid google r hr
          omega
        have hrel_notin : relink m' (freshGid google) ∉ ms := by
          intro hin
          exact h6.1 (List.mem_map.2 ⟨_, hin, rfl⟩)
        have hnd2 : ((pre ++ relink m' (freshGid google) :: post).map MEvent.mid).Nodup :=
          nodup_mids_replace pre post m' _ rfl (hd1 ▸ h1)
        have hne_pre : ∀ d ∈ pre, d ≠ m' := fun d hd heq => hp1 d hd (heq ▸ rfl)
        have hne_post : ∀ d ∈ post, d ≠ m' := fun d hd heq => hp2 d hd (heq ▸ rfl)
        have h2t : ∀ d ∈ ms, staleFor R d = true →
            d ∈ pre ++ relink m' (freshGid google) :: post := by
          intro d hd hds
          have hdm : d ∈ mongo := h2 d (List.mem_cons_of_mem _ hd) hds
          have hdne : d ≠ m' := by
            intro heq
            exact h6.1 (List.mem_map.2 ⟨d, hd, heq ▸ rfl⟩)
          rw [hd1] at hdm
          rcases List.mem_append.1 hdm with h5 | h5
          · exact List.mem_append_left _ h5
          · rcases List.mem_cons.1 h5 with h7 | h7
            · exact absurd h7 hdne
            · exact List.mem_append_right _ (List.mem_cons_of_mem _ h7)
        have h3t : ∀ r ∈ R, r ∈ google ++ [gOfM m' (freshGid google)] :=
          fun r hr => List.mem_append_left _ (h3 r hr)
        have h4t : ∀ d ∈ pre ++ relink m' (freshGid google) :: post,
            ∀ y, d.googleEventId = some y →
            y ∈ (google ++ [gOfM m' (freshGid google)]).map GEvent.id ∨ d ∈ ms := by
          intro d hd y hy
          have hmapsub : ∀ z, z ∈ google.map GEvent.id →
              z ∈ (google ++ [gOfM m' (freshGid google)]).map GEvent.id := by
            intro z hz
            rw [List.map_append]
            exact List.mem_append_left _ hz
          rcases List.mem_append.1 hd with h5 | h5
          · have hdm : d ∈ mongo := hd1 ▸ List.mem_append_left _ h5
            rcases h4 d hdm y hy with h | h
            · exact Or.inl (hmapsub y h)
            · rcases List.mem_cons.1 h with h7 | h7
              · exact absurd h7 (hne_pre d h5)
              · exact Or.inr h7
          · rcases List.mem_cons.1 h5 with h7 | h7
            · subst h7
              left
              rw [show (relink m' (freshGid google)).googleEventId =
                some (freshGid google) from rfl] at hy
              injection hy with hy
              subst hy
              rw [List.map_append]
              refine List.mem_append_right _ ?_
              simp [gOfM]
            · have hdm : d ∈ mongo :=
                hd1 ▸ List.mem_append_right _ (List.mem_cons_of_mem _ h7)
              rcases h4 d hdm y hy with h | h
              · exact Or.inl (hmapsub y h)
              · rcases List.mem_cons.1 h with h8 | h8
                · exact absurd h8 (hne_post d h7)
                · exact Or.inr h8
        obtain ⟨⟨created, hc1, hc2⟩, hC2, hC5⟩ :=
          ih (google ++ [gOfM m' (freshGid google)])
            (pre ++ relink m' (freshGid google) :: post) hnd2 h6.2 h2t h3t h4t
        have hψrel : (!(decide (relink m' (freshGid google) ∈ ms) &&
            staleFor R (relink m' (freshGid google)))) = true := by
          simp [hrel_notin]
        have hsegnil : ∀ seg : List MEvent, (∀ d ∈ seg, d ≠ m') →
            (∀ d ∈ seg, d ∈ mongo) →
            sel (freshGid google)
              (seg.filter (fun m => !(decide (m ∈ ms) && staleFor R m))) = [] := by
          intro seg hne hsub
          rw [sel]
          rw [List.filter_eq_nil_iff]
          intro d hd
          have hdmem := (List.mem_filter.1 hd).1
          have hdkeep := (List.mem_filter.1 hd).2
          intro hgea
          have hgea2 : d.googleEventId = some (freshGid google) := by
            simpa using hgea
          rcases h4 d (hsub d hdmem) (freshGid google) hgea2 with h | h
          · exact hnidG h
          · rcases List.mem_cons.1 h with h7 | h7
            · exact hne d hdmem h7
            · have hds : staleFor R d = true := by
                apply staleFor_of_missing hgea2
                rw [List.find?_eq_none]
                intro g hg
                simp only [beq_iff_eq]
                exact hnidR g hg
              rw [decide_eq_true h7, hds] at hdkeep
              simp at hdkeep
        refine ⟨⟨gOfM m' (freshGid google) :: created, ?_, ?_⟩, hC2, ?_⟩
        · rw [hc1, List.append_assoc, List.singleton_append]
        · intro g2 hg2
          rcases List.mem_cons.1 hg2 with h | h
          · subst h
            refine ⟨relink m' (freshGid google), ?_, hasEventChanged_gOfM_relink m' _⟩
            rw [mongoEventsMapLookup_eq_sel]
            rw [show (gOfM m' (freshGid google)).id = freshGid google from rfl]
            rw [hC5 (freshGid google) (by
              rw [List.map_append]
              refine List.mem_append_right _ ?_
              simp [gOfM])]
            rw [List.filter_append, filter_pending_cons_pos R ms _ _ hψrel]
            rw [sel_append, sel_cons_of_eq _ _ _ rfl]
            rw [hsegnil pre hne_pre ?hs2, hsegnil post hne_post ?hs4]
            · rfl
            case hs2 =>
              intro d hd
              exact hd1 ▸ List.mem_append_left _ hd
            case hs4 =>
              intro d hd
              exact hd1 ▸ List.mem_append_right _ (List.mem_cons_of_mem _ hd)
          · exact hc2 g2 h
        · intro y hy
          have hyfresh : y ≠ freshGid google := by
            obtain ⟨r, hr, hrid⟩ := List.mem_map.1 hy
            have := mem_lt_freshGid google r hr
            omega
          have hy2 : y ∈ (google ++ [gOfM m' (freshGid google)]).map GEvent.id := by
            rw [List.map_append]
            exact List.mem_append_left _ hy
          rw [hC5 y hy2, hd1]
          have hψm' : (!(decide (m' ∈ m' :: ms) && staleFor R m')) = false := by
            simp [hstale]
          rw [List.filter_append, List.filter_append,
            filter_pending_cons_pos R ms _ _ hψrel,
            filter_pending_cons_neg R (m' :: ms) m' post hψm']
          rw [filter_pending_congr_seg R m' ms pre hne_pre,
            filter_pending_congr_seg R m' ms post hne_post]
          rw [sel_append, sel_append,
            sel_cons_of_ne _ _ _ (by
              rw [show (relink m' (freshGid google)).googleEventId =
                some (freshGid google) from rfl]
              simp only [ne_eq, Option.some.injEq]
              omega)]

/-! ## Claim C3 -/

/-- Claim C3 counterexample.  With two remote events sharing the id 1 (and
differing summaries) and an empty local store, the first run inserts two
local copies both linked to id 1; on the second run the map lookup returns
the second copy, which differs from the first remote event, so an update
operation is emitted: the second run's plan is not empty. -/
theorem syncEvents_idem_cex :
    (syncEvents
        (syncEvents [GEvent.mk 1 "a" 0 1 "", GEvent.mk 1 "b" 0 1 ""] []).1.1
        (syncEvents [GEvent.mk 1 "a" 0 1 "", GEvent.mk 1 "b" 0 1 ""] []).1.2).2 ≠ [] := by
  decide

/-- Claim C3, amended.  For every remote list with pairwise-distinct event
ids and every local list with pairwise-distinct internal `_id`s,
synchronization is idempotent: running `syncEvents`, applying all its
operations (the embedded run returns the post-state), and running it again on
the resulting pair produces an empty operation plan — no inserts, no updates,
no remote creations.  Distinctness of the remote ids is necessary (see the
counterexample); distinctness of the local `_id`s is a database invariant
(`_id` is the primary key) and is likewise necessary for the update keyed on
`_id` to hit the mapped event. -/
theorem syncEvents_idempotent (google : List GEvent) (mongo : List MEvent)
    (hg : (google.map GEvent.id).Nodup)
    (hm : (mongo.map MEvent.mid).Nodup) :
    (syncEvents (syncEvents google mongo).1.1 (syncEvents google mongo).1.2).2 = [] := by
  obtain ⟨hN, hI, hF, hG, hK⟩ := pass1_main mongo google mongo hg hm (fun g _ => rfl)
  have h2 : ∀ m' ∈ mongo, staleFor google m' = true →
      m' ∈ (pass1 mongo google mongo).1 := by
    intro m' hm' hst
    apply hK m' hm'
    intro g hg2 heq
    rw [staleFor_some heq] at hst
    have hfn : google.find? (fun r => r.id == g.id) = none := by
      cases hq : google.find? (fun r => r.id == g.id) with
      | none => rfl
      | some r => rw [hq] at hst; simp at hst
    have := List.find?_eq_none.1 hfn g hg2
    simp at this
  have h4 : ∀ m ∈ (pass1 mongo google mongo).1, ∀ x, m.googleEventId = some x →
      x ∈ google.map GEvent.id ∨ m ∈ mongo := by
    intro m hm2 x hx2
    rcases hG m hm2 with h | ⟨g, hg2, hgea⟩
    · exact Or.inr h
    · left
      rw [hx2] at hgea
      injection hgea with hgea
      exact List.mem_map.2 ⟨g, hg2, hgea.symm⟩
  obtain ⟨⟨created, hc1, hc2⟩, hC2, hC5⟩ :=
    pass2_main google mongo google (pass1 mongo google mongo).1 hN hm h2
      (fun r hr => hr) h4
  have hG2 : (syncEvents google mongo).1.1 =
      (pass2 google mongo google (pass1 mongo google mongo).1).1 := rfl
  have hM2 : (syncEvents google mongo).1.2 =
      (pass2 google mongo google (pass1 mongo google mongo).1).2.1 := rfl
  rw [hG2, hM2]
  have hselfix : ∀ g ∈ google,
      sel g.id ((pass1 mongo google mongo).1.filter
        (fun m => !(decide (m ∈ mongo) && staleFor google m))) =
      sel g.id (pass1 mongo google mongo).1 := by
    intro g hg2
    unfold sel
    rw [List.filter_filter]
    apply List.filter_congr
    intro d hd
    cases hsp : (d.googleEventId == some g.id) with
    | false => simp
    | true =>
      have hgea : d.googleEventId = some g.id := by simpa using hsp
      have hstale : staleFor google d = false := by
        rw [staleFor_some hgea]
        have : (google.find? (fun r => r.id == g.id)).isSome = true :=
          List.find?_isSome.2 ⟨g, hg2, by simp⟩
        cases hq : google.find? (fun r => r.id == g.id) with
        | none => rw [hq] at this; simp at this
        | some r => rfl
      rw [hstale]
      simp
  have hi : ∀ g2 ∈ (pass2 google mongo google (pass1 mongo google mongo).1).1,
      ∃ m, mongoEventsMapLookup
        (pass2 google mongo google (pass1 mongo google mongo).1).2.1 g2.id = some m ∧
        hasEventChanged g2 m = false := by
    intro g2 hg2
    rw [hc1] at hg2
    rcases List.mem_append.1 hg2 with h | h
    · obtain ⟨m, hIl, hIc⟩ := hI g2 h
      refine ⟨m, ?_, hIc⟩
      rw [mongoEventsMapLookup_eq_sel,
        hC5 g2.id (List.mem_map.2 ⟨g2, h, rfl⟩), hselfix g2 h,
        ← mongoEventsMapLookup_eq_sel, hIl]
    · exact hc2 g2 h
  have hii : ∀ m ∈ (pass2 google mongo google (pass1 mongo google mongo).1).2.1,
      ∀ x, m.googleEventId = some x →
      ((pass2 google mongo google (pass1 mongo google mongo).1).1.find?
        (fun g => g.id == x)).isSome = true := by
    intro m hm2 x hx2
    obtain ⟨r, hr, hrid⟩ := List.mem_map.1 (hC2 m hm2 x hx2)
    exact List.find?_isSome.2 ⟨r, hr, by simp [hrid]⟩
  have e1 : pass1 (pass2 google mongo google (pass1 mongo google mongo).1).2.1
      (pass2 google mongo google (pass1 mongo google mongo).1).1
      (pass2 google mongo google (pass1 mongo google mongo).1).2.1 =
      ((pass2 google mongo google (pass1 mongo google mongo).1).2.1, []) :=
    pass1_no_ops _ _ _ hi
  have e2 : pass2 (pass2 google mongo google (pass1 mongo google mongo).1).1
      (pass2 google mongo google (pass1 mongo google mongo).1).2.1
      (pass2 google mongo google (pass1 mongo google mongo).1).1
      (pass2 google mongo google (pass1 mongo google mongo).1).2.1 =
      ((pass2 google mongo google (pass1 mongo google mongo).1).1,
        (pass2 google mongo google (pass1 mongo google mongo).1).2.1, []) :=
    pass2_no_ops _ _ _ _ hii
  show (syncEvents _ _).2 = []
  unfold syncEvents
  dsimp only
  rw [e1]
  dsimp only
  rw [e2]
  rfl

/-- Witness for the amended C3 theorem: one remote event and one local event
linked to a missing remote id; the first run inserts a local copy of the
remote event and re-creates the missing remote event, and the second run is
empty. -/
theorem syncEvents_idempotent_witness :
    (([GEvent.mk 1 "a" 0 1 ""].map GEvent.id).Nodup ∧
      ([MEvent.mk 9 "x" 0 1 "d" (some 4)].map MEvent.mid).Nodup) ∧
    (syncEvents
      (syncEvents [GEvent.mk 1 "a" 0 1 ""] [MEvent.mk 9 "x" 0 1 "d" (some 4)]).1.1
      (syncEvents [GEvent.mk 1 "a" 0 1 ""] [MEvent.mk 9 "x" 0 1 "d" (some 4)]).1.2).2
      = [] :=
  ⟨⟨by decide, by decide⟩,
    syncEvents_idempotent [GEvent.mk 1 "a" 0 1 ""] [MEvent.mk 9 "x" 0 1 "d" (some 4)]
      (by decide) (by decide)⟩

end AssistantApp
